import Mathlib

/-!
Verification model of the hjson-go transcoder (ordered map, document node,
recursive-descent parser and encoder).  The embedding is shallow: Go source
functions are translated into executable Lean definitions.  Go byte-level
scanning is modelled at the rune (Char) level, which is faithful because every
byte of a multi-byte UTF-8 rune is at least 0x80 and therefore never collides
with any of the ASCII characters the scanner tests for.  Reflection-driven
struct binding and the final json.Marshal/json.Unmarshal handoff are out of
scope; the decoder model returns the parsed generic value tree.
-/

namespace Hjson

/-! ## Ordered map (orderedmap.go)

The Go type wraps a native map together with a Keys slice.  The native map is
modelled as an association list with unique keys; assignment overwrites an
existing entry in place (length unchanged) or appends a new entry (length
grows by one), exactly the observable behaviour of a Go map. -/

/-- Association-list lookup, modelling a Go map read. -/
def mapGet {K V : Type} [DecidableEq K] (m : List (K × V)) (k : K) :
    Option V :=
  match m with
  | [] => none
  | (k2, v) :: rest => if k2 = k then some v else mapGet rest k

/-- Association-list assignment, modelling a Go map write: overwrite in place
when the key exists, append otherwise. -/
def mapSet {K V : Type} [DecidableEq K] (m : List (K × V)) (k : K) (v : V) :
    List (K × V) :=
  match m with
  | [] => [(k, v)]
  | (k2, v2) :: rest =>
    if k2 = k then (k2, v) :: rest else (k2, v2) :: mapSet rest k v

/-- Association-list deletion, modelling a Go map delete. -/
def mapDel {K V : Type} [DecidableEq K] (m : List (K × V)) (k : K) :
    List (K × V) :=
  match m with
  | [] => []
  | (k2, v2) :: rest =>
    if k2 = k then rest else (k2, v2) :: mapDel rest k

/-- OrderedMap wraps a map and a slice containing all of the keys from the
map (orderedmap.go). -/
structure OrderedMap (V : Type) where
  Keys : List String
  Map : List (String × V)
deriving Repr

/-- NewOrderedMap returns an empty OrderedMap (orderedmap.go). -/
def NewOrderedMap (V : Type) : OrderedMap V := { Keys := [], Map := [] }

/-- Len returns the number of values contained in the OrderedMap. -/
def OrderedMap.Len {V : Type} (c : OrderedMap V) : Nat := c.Keys.length

/-- Insert inserts a new key/value pair at the specified index
(orderedmap.go).  If the key already exists the new value is set but the
position of the key is not changed.  Returns the updated map together with
the bool result of the Go method: true when the key already existed. -/
def OrderedMap.Insert {V : Type} (c : OrderedMap V) (index : Nat)
    (key : String) (value : V) : OrderedMap V × Bool :=
  let m := mapSet c.Map key value
  if m.length = c.Keys.length then
    ({ c with Map := m }, true)
  else if index = c.Keys.length then
    ({ Keys := c.Keys ++ [key], Map := m }, false)
  else
    ({ Keys := c.Keys.take index ++ key :: c.Keys.drop index, Map := m },
      false)

/-- Set sets the specified value for the specified key, appending the key at
the end when it is new (orderedmap.go): Insert at the end position. -/
def OrderedMap.Set {V : Type} (c : OrderedMap V) (key : String) (value : V) :
    OrderedMap V × Bool :=
  c.Insert c.Keys.length key value

/-- AtIndex returns the value found at the specified index (orderedmap.go).
In Go an out-of-range index panics; callers must keep the index in range. -/
def OrderedMap.AtIndex {V : Type} [Inhabited V] (c : OrderedMap V)
    (index : Nat) : Option V :=
  mapGet c.Map (c.Keys.getD index "")

/-- DeleteIndex deletes the key/value pair found at the specified index
(orderedmap.go).  In Go an out-of-range index panics. -/
def OrderedMap.DeleteIndex {V : Type} (c : OrderedMap V) (index : Nat) :
    OrderedMap V :=
  { Keys := c.Keys.take index ++ c.Keys.drop (index + 1),
    Map := mapDel c.Map (c.Keys.getD index "") }

/-- Index of the first occurrence of key, modelling the range loop in the Go
DeleteKey. -/
def firstIdx (l : List String) (key : String) : Option Nat :=
  match l with
  | [] => none
  | a :: rest => if a = key then some 0 else (firstIdx rest key).map (· + 1)

/-- DeleteKey deletes the key/value pair with the specified key, if found
(orderedmap.go): linear scan for the position, then DeleteIndex. -/
def OrderedMap.DeleteKey {V : Type} (c : OrderedMap V) (key : String) :
    OrderedMap V × Bool :=
  match firstIdx c.Keys key with
  | some index => (c.DeleteIndex index, true)
  | none => (c, false)

/-- One public mutation call on an OrderedMap, for stating the invariant
over arbitrary call sequences. -/
inductive OMOp (V : Type) where
  | ins (index : Nat) (key : String) (value : V)
  | set (key : String) (value : V)
  | delIdx (index : Nat)
  | delKey (key : String)

/-- Apply one operation. -/
def OMOp.apply {V : Type} (c : OrderedMap V) : OMOp V → OrderedMap V
  | .ins index key value => (c.Insert index key value).1
  | .set key value => (c.Set key value).1
  | .delIdx index => c.DeleteIndex index
  | .delKey key => (c.DeleteKey key).1

/-- Apply a sequence of operations in order. -/
def OMRun {V : Type} (c : OrderedMap V) : List (OMOp V) → OrderedMap V
  | [] => c
  | op :: ops => OMRun (op.apply c) ops

/-- Index arguments stay in range along the whole sequence (the caller
contract of Insert and DeleteIndex). -/
def OMValid {V : Type} (c : OrderedMap V) : List (OMOp V) → Prop
  | [] => True
  | op :: ops =>
    (match op with
     | .ins index _ _ => index ≤ c.Keys.length
     | .delIdx index => index < c.Keys.length
     | _ => True) ∧ OMValid (op.apply c) ops

instance {V : Type} (c : OrderedMap V) (ops : List (OMOp V)) :
    Decidable (OMValid c ops) := by
  induction ops generalizing c with
  | nil => exact .isTrue trivial
  | cons op ops ih =>
    have : Decidable ((match op with
       | .ins index _ _ => index ≤ c.Keys.length
       | .delIdx index => index < c.Keys.length
       | _ => True) ∧ OMValid (op.apply c) ops) := by
      have := ih (op.apply c)
      cases op <;> simp only [] <;> infer_instance
    exact this

/-- The claim invariant: the key sequence has no duplicates, every listed key
is present in the map, and every map entry has its key in the sequence. -/
def OMInv {V : Type} (c : OrderedMap V) : Prop :=
  c.Keys.Nodup ∧ (∀ k ∈ c.Keys, (mapGet c.Map k).isSome) ∧
    (∀ p ∈ c.Map, p.1 ∈ c.Keys)

instance {V : Type} (c : OrderedMap V) : Decidable (OMInv c) := by
  unfold OMInv; infer_instance

/-- Internal representation well-formedness carried through the proofs: the
association list has unique keys (true of any Go map) and is in one-to-one
correspondence with the key sequence, hence same length. -/
def OMGood {V : Type} (c : OrderedMap V) : Prop :=
  c.Keys.Nodup ∧ (c.Map.map Prod.fst).Nodup ∧
    (∀ k, k ∈ c.Keys ↔ (mapGet c.Map k).isSome) ∧
    c.Map.length = c.Keys.length

theorem mapGet_isSome_iff_mem {V : Type} (m : List (String × V)) (k : String) :
    (mapGet m k).isSome ↔ k ∈ m.map Prod.fst := by
  induction m with
  | nil => simp [mapGet]
  | cons p rest ih =>
    obtain ⟨k2, v⟩ := p
    by_cases h : k2 = k
    · subst h
      simp [mapGet]
    · have h2 : ¬k = k2 := fun he => h he.symm
      simp [mapGet, h, h2, ih]

theorem mapGet_mapSet_self {V : Type} (m : List (String × V)) (k : String)
    (v : V) : mapGet (mapSet m k v) k = some v := by
  induction m with
  | nil => simp [mapSet, mapGet]
  | cons p rest ih =>
    obtain ⟨k2, v2⟩ := p
    by_cases h : k2 = k <;> simp [mapSet, mapGet, h, ih]

theorem mapGet_mapSet_ne {V : Type} (m : List (String × V)) (k k2 : String)
    (v : V) (h : k2 ≠ k) : mapGet (mapSet m k v) k2 = mapGet m k2 := by
  have h' : ¬k = k2 := fun he => h he.symm
  induction m with
  | nil => simp [mapSet, mapGet, h']
  | cons p rest ih =>
    obtain ⟨k3, v3⟩ := p
    by_cases h3 : k3 = k
    · subst h3
      simp [mapSet, mapGet, h']
    · by_cases h4 : k3 = k2
      · subst h4
        simp [mapSet, mapGet, h3]
      · simp [mapSet, mapGet, h3, h4, ih]

theorem map_fst_mapSet_of_mem {V : Type} (m : List (String × V)) (k : String)
    (v : V) (h : (mapGet m k).isSome) :
    (mapSet m k v).map Prod.fst = m.map Prod.fst := by
  induction m with
  | nil => simp [mapGet] at h
  | cons p rest ih =>
    obtain ⟨k2, v2⟩ := p
    by_cases h2 : k2 = k
    · simp [mapSet, h2]
    · simp [mapGet, h2] at h
      simp [mapSet, h2, ih h]

theorem map_fst_mapSet_of_not_mem {V : Type} (m : List (String × V))
    (k : String) (v : V) (h : mapGet m k = none) :
    (mapSet m k v).map Prod.fst = m.map Prod.fst ++ [k] := by
  induction m with
  | nil => simp [mapSet]
  | cons p rest ih =>
    obtain ⟨k2, v2⟩ := p
    by_cases h2 : k2 = k
    · simp [mapGet, h2] at h
    · simp [mapGet, h2] at h
      simp [mapSet, h2, ih h]

theorem length_mapSet_of_mem {V : Type} (m : List (String × V)) (k : String)
    (v : V) (h : (mapGet m k).isSome) : (mapSet m k v).length = m.length := by
  have := map_fst_mapSet_of_mem m k v h
  have h1 : ((mapSet m k v).map Prod.fst).length = (m.map Prod.fst).length :=
    by rw [this]
  simpa using h1

theorem length_mapSet_of_not_mem {V : Type} (m : List (String × V))
    (k : String) (v : V) (h : mapGet m k = none) :
    (mapSet m k v).length = m.length + 1 := by
  have := map_fst_mapSet_of_not_mem m k v h
  have h1 : ((mapSet m k v).map Prod.fst).length
      = (m.map Prod.fst).length + 1 := by rw [this]; simp
  simpa using h1

theorem mapGet_mapDel_ne {V : Type} (m : List (String × V)) (k k2 : String)
    (h : k2 ≠ k) : mapGet (mapDel m k) k2 = mapGet m k2 := by
  have h' : ¬k = k2 := fun he => h he.symm
  induction m with
  | nil => simp [mapDel]
  | cons p rest ih =>
    obtain ⟨k3, v3⟩ := p
    by_cases h3 : k3 = k
    · subst h3
      simp [mapDel, mapGet, h']
    · by_cases h4 : k3 = k2
      · subst h4
        simp [mapDel, mapGet, h3]
      · simp [mapDel, mapGet, h3, h4, ih]

theorem mapGet_mapDel_self {V : Type} (m : List (String × V)) (k : String)
    (hn : (m.map Prod.fst).Nodup) : mapGet (mapDel m k) k = none := by
  induction m with
  | nil => simp [mapDel, mapGet]
  | cons p rest ih =>
    obtain ⟨k2, v2⟩ := p
    simp only [List.map_cons, List.nodup_cons] at hn
    by_cases h2 : k2 = k
    · subst h2
      simp only [mapDel, if_pos rfl]
      rw [← Option.not_isSome_iff_eq_none, mapGet_isSome_iff_mem]
      exact hn.1
    · simp [mapDel, mapGet, h2, ih hn.2]

theorem map_fst_mapDel_sublist {V : Type} (m : List (String × V))
    (k : String) : ((mapDel m k).map Prod.fst).Sublist (m.map Prod.fst) := by
  induction m with
  | nil => simp [mapDel]
  | cons p rest ih =>
    obtain ⟨k2, v2⟩ := p
    by_cases h2 : k2 = k
    · simp only [mapDel, if_pos h2, List.map_cons]
      exact (List.sublist_cons_self _ _)
    · simpa [mapDel, h2] using ih.cons₂ k2

theorem length_mapDel_of_mem {V : Type} (m : List (String × V)) (k : String)
    (h : (mapGet m k).isSome) : (mapDel m k).length + 1 = m.length := by
  induction m with
  | nil => simp [mapGet] at h
  | cons p rest ih =>
    obtain ⟨k2, v2⟩ := p
    by_cases h2 : k2 = k
    · simp [mapDel, h2]
    · simp [mapGet, h2] at h
      simp [mapDel, h2, ih h]

theorem OMGood.inv {V : Type} {c : OrderedMap V} (h : OMGood c) : OMInv c := by
  obtain ⟨h1, _, h3, _⟩ := h
  refine ⟨h1, fun k hk => (h3 k).mp hk, fun p hp => ?_⟩
  exact (h3 p.1).mpr ((mapGet_isSome_iff_mem _ _).mpr
    (List.mem_map.mpr ⟨p, hp, rfl⟩))

theorem OMGood.new (V : Type) : OMGood (NewOrderedMap V) := by
  refine ⟨List.nodup_nil, List.nodup_nil, fun k => ?_, rfl⟩
  simp [NewOrderedMap, mapGet]

/-- Key facts about Insert under the representation invariant, in the exact
shape of the Go code result. -/
theorem Insert_spec {V : Type} (c : OrderedMap V) (i : Nat) (k : String)
    (v : V) (hg : OMGood c) (hi : i ≤ c.Keys.length) :
    (k ∉ c.Keys →
      c.Insert i k v
        = ({ Keys := c.Keys.take i ++ k :: c.Keys.drop i,
             Map := mapSet c.Map k v }, false)) ∧
    (k ∈ c.Keys →
      c.Insert i k v = ({ c with Map := mapSet c.Map k v }, true)) := by
  obtain ⟨_, _, h3, h4⟩ := hg
  constructor
  · intro hk
    have hnone : mapGet c.Map k = none := by
      rw [← Option.not_isSome_iff_eq_none, ← h3]
      exact hk
    have hlen : (mapSet c.Map k v).length = c.Keys.length + 1 := by
      rw [length_mapSet_of_not_mem c.Map k v hnone, h4]
    have hne : ¬(c.Keys.length + 1 = c.Keys.length) := by omega
    unfold OrderedMap.Insert
    by_cases hieq : i = c.Keys.length
    · subst hieq
      simp [hlen, hne]
    · simp [hlen, hne, hieq]
  · intro hk
    have hsome : (mapGet c.Map k).isSome := (h3 k).mp hk
    have hlen : (mapSet c.Map k v).length = c.Keys.length := by
      rw [length_mapSet_of_mem c.Map k v hsome, h4]
    unfold OrderedMap.Insert
    simp [hlen]

theorem Insert_good {V : Type} (c : OrderedMap V) (i : Nat) (k : String)
    (v : V) (hg : OMGood c) (hi : i ≤ c.Keys.length) :
    OMGood (c.Insert i k v).1 := by
  obtain ⟨h1, h2, h3, h4⟩ := hg
  by_cases hk : k ∈ c.Keys
  · rw [((Insert_spec c i k v ⟨h1, h2, h3, h4⟩ hi).2 hk)]
    have hsome : (mapGet c.Map k).isSome := (h3 k).mp hk
    refine ⟨h1, ?_, fun k2 => ?_, ?_⟩
    · rw [map_fst_mapSet_of_mem c.Map k v hsome]; exact h2
    · by_cases hk2 : k2 = k
      · subst hk2
        simp [mapGet_mapSet_self, hk]
      · rw [mapGet_mapSet_ne c.Map k k2 v hk2]; exact h3 k2
    · rw [length_mapSet_of_mem c.Map k v hsome]; exact h4
  · rw [((Insert_spec c i k v ⟨h1, h2, h3, h4⟩ hi).1 hk)]
    have hnone : mapGet c.Map k = none := by
      rw [← Option.not_isSome_iff_eq_none, ← h3]; exact hk
    have hperm : (c.Keys.take i ++ k :: c.Keys.drop i).Perm (k :: c.Keys) := by
      refine (List.perm_middle).trans ?_
      rw [List.take_append_drop]
    refine ⟨?_, ?_, fun k2 => ?_, ?_⟩
    · exact hperm.nodup_iff.mpr (List.nodup_cons.mpr ⟨hk, h1⟩)
    · rw [map_fst_mapSet_of_not_mem c.Map k v hnone]
      rw [List.nodup_append]
      refine ⟨h2, List.nodup_singleton k, ?_⟩
      intro a ha hb
      simp only [List.mem_singleton] at hb
      subst hb
      exact hk ((h3 a).mpr ((mapGet_isSome_iff_mem _ _).mpr ha))
    · rw [hperm.mem_iff, List.mem_cons]
      by_cases hk2 : k2 = k
      · subst hk2
        simp [mapGet_mapSet_self]
      · rw [mapGet_mapSet_ne c.Map k k2 v hk2]
        simp [hk2, h3 k2]
    · simp only [List.length_append, List.length_cons]
      rw [length_mapSet_of_not_mem c.Map k v hnone, h4]
      have := List.take_append_drop i c.Keys
      have hlen : (c.Keys.take i).length + (c.Keys.drop i).length
          = c.Keys.length := by
        rw [← List.length_append, this]
      omega

theorem DeleteIndex_good {V : Type} (c : OrderedMap V) (i : Nat)
    (hg : OMGood c) (hi : i < c.Keys.length) : OMGood (c.DeleteIndex i) := by
  obtain ⟨h1, h2, h3, h4⟩ := hg
  set ki := c.Keys.getD i "" with hki
  have hget : c.Keys.getD i "" = c.Keys[i] := by
    rw [List.getD_eq_getElem?_getD, List.getElem?_eq_getElem hi]
    rfl
  have hdrop : c.Keys.drop i = c.Keys[i] :: c.Keys.drop (i + 1) :=
    List.drop_eq_getElem_cons hi
  have hperm : c.Keys.Perm (ki :: (c.Keys.take i ++ c.Keys.drop (i + 1))) := by
    conv_lhs => rw [← List.take_append_drop i c.Keys, hdrop]
    rw [hki, hget]
    exact List.perm_middle
  have hmem : ki ∈ c.Keys := by
    rw [hperm.mem_iff]; exact List.mem_cons_self _ _
  have hnodup2 : (ki :: (c.Keys.take i ++ c.Keys.drop (i + 1))).Nodup :=
    hperm.nodup_iff.mp h1
  rw [List.nodup_cons] at hnodup2
  refine ⟨hnodup2.2, ?_, fun k2 => ?_, ?_⟩
  · exact (map_fst_mapDel_sublist c.Map ki).nodup h2
  · unfold OrderedMap.DeleteIndex
    simp only [← hki]
    by_cases hk2 : k2 = ki
    · subst hk2
      simp [mapGet_mapDel_self c.Map _ h2, hnodup2.1]
    · rw [mapGet_mapDel_ne c.Map ki k2 hk2, ← h3 k2]
      have := hperm.mem_iff (a := k2)
      simp only [List.mem_cons] at this
      constructor
      · intro hmem2
        exact this.mpr (Or.inr hmem2)
      · intro hmem2
        rcases this.mp hmem2 with h | h
        · exact absurd h hk2
        · exact h
  · unfold OrderedMap.DeleteIndex
    simp only [← hki, List.length_append]
    have hsome : (mapGet c.Map ki).isSome := (h3 ki).mp hmem
    have hdel := length_mapDel_of_mem c.Map ki hsome
    have hlen2 : (ki :: (c.Keys.take i ++ c.Keys.drop (i + 1))).length
        = c.Keys.length := hperm.length_eq.symm
    simp only [List.length_cons, List.length_append] at hlen2
    omega

theorem firstIdx_spec (l : List String) (key : String) (i : Nat)
    (h : firstIdx l key = some i) : i < l.length := by
  induction l generalizing i with
  | nil => simp [firstIdx] at h
  | cons a l ih =>
    by_cases ha : a = key
    · simp only [firstIdx, if_pos ha] at h
      cases h
      simp
    · simp only [firstIdx, if_neg ha, Option.map_eq_some'] at h
      obtain ⟨j, hj, rfl⟩ := h
      have := ih j hj
      simp only [List.length_cons]
      omega

theorem DeleteKey_good {V : Type} (c : OrderedMap V) (key : String)
    (hg : OMGood c) : OMGood (c.DeleteKey key).1 := by
  unfold OrderedMap.DeleteKey
  cases hfind : firstIdx c.Keys key with
  | none => exact hg
  | some i => exact DeleteIndex_good c i hg (firstIdx_spec c.Keys key i hfind)

theorem step_good {V : Type} (c : OrderedMap V) (op : OMOp V)
    (hg : OMGood c)
    (hv : match op with
          | .ins index _ _ => index ≤ c.Keys.length
          | .delIdx index => index < c.Keys.length
          | _ => True) : OMGood (op.apply c) := by
  cases op with
  | ins index k v => exact Insert_good c index k v hg hv
  | set k v => exact Insert_good c c.Keys.length k v hg (Nat.le_refl _)
  | delIdx index => exact DeleteIndex_good c index hg hv
  | delKey k => exact DeleteKey_good c k hg

theorem OMRun_good {V : Type} (c : OrderedMap V) (ops : List (OMOp V))
    (hg : OMGood c) (hv : OMValid c ops) : OMGood (OMRun c ops) := by
  induction ops generalizing c with
  | nil => exact hg
  | cons op ops ih =>
    obtain ⟨hop, hrest⟩ := hv
    exact ih (op.apply c) (step_good c op hg hop) hrest

/-- C2: after any in-range sequence of Insert, Set, DeleteIndex and DeleteKey
calls starting from a fresh OrderedMap, the Keys sequence has no duplicate
entries, every listed key is mapped, and every map entry has its key listed
(the key sequence and the key set of the map coincide exactly). -/
theorem orderedMap_invariant {V : Type} (ops : List (OMOp V))
    (hv : OMValid (NewOrderedMap V) ops) :
    OMInv (OMRun (NewOrderedMap V) ops) :=
  (OMRun_good (NewOrderedMap V) ops (OMGood.new V) hv).inv

/-- Witness for orderedMap_invariant at a concrete call sequence. -/
theorem orderedMap_invariant_witness :
    OMValid (NewOrderedMap Nat)
      [.ins 0 "b" 1, .set "a" 2, .ins 1 "c" 3, .delIdx 0, .delKey "a"] ∧
    OMInv (OMRun (NewOrderedMap Nat)
      [.ins 0 "b" 1, .set "a" 2, .ins 1 "c" 3, .delIdx 0, .delKey "a"]) :=
  ⟨by decide, orderedMap_invariant _ (by decide)⟩

/-- Concrete one-entry OrderedMap holding value 1 under key a. -/
def omPrior1 : OrderedMap Nat := { Keys := ["a"], Map := [("a", 1)] }

/-- Concrete one-entry OrderedMap holding value 2 under key a. -/
def omPrior2 : OrderedMap Nat := { Keys := ["a"], Map := [("a", 2)] }

/-- C5 counterexample: Insert returns only a found flag, never the prior
value.  Two maps that differ only in the prior value stored under the key
produce the same returned flag component (the Go method returns one bool),
so the return cannot carry the differing prior values 1 and 2. -/
theorem insert_no_prior_value :
    (omPrior1.Insert 0 "a" 5).2 = (omPrior2.Insert 0 "a" 5).2 ∧
    (omPrior1.Insert 0 "a" 5).2 = true ∧
    mapGet (omPrior1.Insert 0 "a" 5).1.Map "a" = some 5 ∧
    mapGet omPrior1.Map "a" = some 1 ∧
    mapGet omPrior2.Map "a" = some 2 ∧
    (1 : Nat) ≠ 2 := by
  decide

/-- C5 (amended): for an in-range index on a well-formed OrderedMap, Insert
with a fresh key places the key at sequence position i, shifting later keys
right, and reports found = false; Insert with an existing key overwrites the
value in place, leaves the key sequence (hence the key position) unchanged,
and reports found = true.  The prior value is not part of the return. -/
theorem insert_semantics {V : Type} (c : OrderedMap V) (i : Nat) (k : String)
    (v : V) (hg : OMGood c) (hi : i ≤ c.Keys.length) :
    (k ∉ c.Keys →
      (c.Insert i k v).2 = false ∧
      (c.Insert i k v).1.Keys = c.Keys.take i ++ k :: c.Keys.drop i ∧
      mapGet (c.Insert i k v).1.Map k = some v ∧
      (∀ k2, k2 ≠ k → mapGet (c.Insert i k v).1.Map k2 = mapGet c.Map k2)) ∧
    (k ∈ c.Keys →
      (c.Insert i k v).2 = true ∧
      (c.Insert i k v).1.Keys = c.Keys ∧
      mapGet (c.Insert i k v).1.Map k = some v ∧
      (∀ k2, k2 ≠ k → mapGet (c.Insert i k v).1.Map k2 = mapGet c.Map k2)) := by
  have hspec := Insert_spec c i k v hg hi
  constructor
  · intro hk
    rw [hspec.1 hk]
    exact ⟨rfl, rfl, mapGet_mapSet_self c.Map k v,
      fun k2 h => mapGet_mapSet_ne c.Map k k2 v h⟩
  · intro hk
    rw [hspec.2 hk]
    exact ⟨rfl, rfl, mapGet_mapSet_self c.Map k v,
      fun k2 h => mapGet_mapSet_ne c.Map k k2 v h⟩

/-- Concrete two-entry OrderedMap used for the Insert witness. -/
def omXY : OrderedMap Nat := { Keys := ["x", "y"], Map := [("x", 1), ("y", 2)] }

theorem omXY_good : OMGood omXY := by
  refine ⟨by decide, by decide, fun k => ?_, rfl⟩
  by_cases h1 : k = "x"
  · subst h1; decide
  by_cases h2 : k = "y"
  · subst h2; decide
  have h1' : ¬"x" = k := fun he => h1 he.symm
  have h2' : ¬"y" = k := fun he => h2 he.symm
  simp [omXY, mapGet, h1, h2, h1', h2']

/-- Witness for insert_semantics at a concrete map and index. -/
theorem insert_semantics_witness :
    OMGood omXY ∧ (1 : Nat) ≤ omXY.Keys.length ∧ "z" ∉ omXY.Keys ∧
    (omXY.Insert 1 "z" 9).1.Keys = ["x", "z", "y"] := by
  refine ⟨omXY_good, by decide, by decide, ?_⟩
  have := ((insert_semantics omXY 1 "z" 9 omXY_good (by decide)).1
      (by decide)).2.1
  simpa [omXY] using this

/-! ## Document node (node.go)

A Node wraps a generic value together with four comment slots.  Container
elements in Go have static type interface braces and are expected, but not
guaranteed, to be Node pointers; the NElem sum captures both cases.  A nil
Node pointer is modelled as the none case of Option Node.  Go panics (slice
index out of range) are modelled by the distinguished result faulted, kept
apart from returned errors. -/

/-- Comment slots attached to a Node (node.go). -/
structure Comments where
  Before : String
  Key : String
  Inside : String
  After : String
deriving Repr, DecidableEq

/-- Empty comments, the zero value used by the editing API for fresh nodes. -/
def emptyCm : Comments := { Before := "", Key := "", Inside := "", After := "" }

mutual
/-- The value wrapped by a Node: nil, bool, number, string, array of
elements or ordered map of elements (node.go doc comment). -/
inductive NVal : Type where
  | nullv : NVal
  | boolv : Bool → NVal
  | numv : String → NVal
  | strv : String → NVal
  | arrv : List NElem → NVal
  | omapv : OrderedMap NElem → NVal

/-- A container element: a Node pointer, or any other interface value (the
Go code type-asserts and reports an element-type error otherwise). -/
inductive NElem : Type where
  | node : Node → NElem
  | raw : NVal → NElem

/-- Node pairs a Value with a Comments record (node.go). -/
inductive Node : Type where
  | mk : NVal → Comments → Node
end

/-- The wrapped value of a Node. -/
def Node.Value : Node → NVal
  | .mk v _ => v

/-- The comments of a Node. -/
def Node.Cm : Node → Comments
  | .mk _ cm => cm

/-- The Go reflect type name printed in the accessor error messages. -/
def NVal.typeName : NVal → String
  | .nullv => "<nil>"
  | .boolv _ => "bool"
  | .numv _ => "json.Number"
  | .strv _ => "string"
  | .arrv _ => "[]interface \x7b\x7d"
  | .omapv _ => "*hjson.OrderedMap"

/-- Errors returned by the Node accessors (node.go error messages). -/
inductive NodeErr : Type where
  | nilNode : NodeErr
  | unexpectedValueType : String → NodeErr
  | unexpectedElementType : String → NodeErr
deriving Repr, DecidableEq

/-- Result of a Node accessor: a value, a returned error, or a Go panic
(out-of-range index). -/
inductive NodeRes (α : Type) : Type where
  | ok : α → NodeRes α
  | fail : NodeErr → NodeRes α
  | faulted : NodeRes α
deriving Repr

/-- Boolean discriminator: value is an ordered map. -/
def NVal.isObj : NVal → Bool
  | .omapv _ => true
  | _ => false

/-- Boolean discriminator: value is an array. -/
def NVal.isArr : NVal → Bool
  | .arrv _ => true
  | _ => false

/-- Boolean discriminator: value is typeless nil. -/
def NVal.isNil : NVal → Bool
  | .nullv => true
  | _ => false

/-- Len returns the length of the wrapped value for ordered maps, arrays and
strings, 0 otherwise and 0 for a nil Node (node.go).  Go counts string bytes;
the model counts runes, consistent with the rune-level embedding. -/
def Node.Len (c : Option Node) : Nat :=
  match c with
  | none => 0
  | some n =>
    match n.Value with
    | .omapv om => om.Len
    | .arrv xs => xs.length
    | .strv s => s.length
    | _ => 0

/-- Shared helper: the container element at an index, modelling
cont.AtIndex(index) and cont[index] including the Go panic on an
out-of-range index, and the untyped-nil result of a map lookup miss. -/
def nodeElemAt : NVal → Nat → NodeRes NElem
  | .omapv om, index =>
    match om.Keys[index]? with
    | none => .faulted
    | some k => .ok ((mapGet om.Map k).getD (.raw .nullv))
  | .arrv xs, index =>
    match xs[index]? with
    | none => .faulted
    | some e => .ok e
  | v, _ => .fail (.unexpectedValueType v.typeName)

/-- AtIndex returns the value, unwrapped from its Node, found at the
specified index (node.go). -/
def Node.AtIndex (c : Option Node) (index : Nat) : NodeRes NVal :=
  match c with
  | none => .fail .nilNode
  | some n =>
    match nodeElemAt n.Value index with
    | .faulted => .faulted
    | .fail e => .fail e
    | .ok (.node n2) => .ok n2.Value
    | .ok (.raw v) => .fail (.unexpectedElementType v.typeName)

/-- AtKey returns the value found for the specified key together with a
found flag (node.go).  For a nil Node it returns no error and no value. -/
def Node.AtKey (c : Option Node) (key : String) : NodeRes (Option NVal × Bool) :=
  match c with
  | none => .ok (none, false)
  | some n =>
    match n.Value with
    | .omapv om =>
      match mapGet om.Map key with
      | none => .ok (none, false)
      | some (.node n2) => .ok (some n2.Value, true)
      | some (.raw v) => .fail (.unexpectedElementType v.typeName)
    | v => .fail (.unexpectedValueType v.typeName)

/-- Append adds the input value to the end of the wrapped array, first
materializing an empty array when the Node holds typeless nil (node.go).
Returns the updated Node. -/
def Node.Append (c : Option Node) (value : NVal) : NodeRes Node :=
  match c with
  | none => .fail .nilNode
  | some n =>
    match n.Value with
    | .nullv => .ok (.mk (.arrv [.node (.mk value emptyCm)]) n.Cm)
    | .arrv xs => .ok (.mk (.arrv (xs ++ [.node (.mk value emptyCm)])) n.Cm)
    | v => .fail (.unexpectedValueType v.typeName)

/-- SetIndex assigns the value to the child Node at the specified index,
preserving the child comments, or replaces a non-Node element with a fresh
Node (node.go).  Returns the updated Node. -/
def Node.SetIndex (c : Option Node) (index : Nat) (value : NVal) :
    NodeRes Node :=
  match c with
  | none => .fail .nilNode
  | some n =>
    match nodeElemAt n.Value index with
    | .faulted => .faulted
    | .fail e => .fail e
    | .ok elem =>
      let newElem : NElem :=
        match elem with
        | .node n2 => .node (.mk value n2.Cm)
        | .raw _ => .node (.mk value emptyCm)
      match n.Value with
      | .omapv om =>
        .ok (.mk (.omapv
          { om with Map := mapSet om.Map (om.Keys.getD index "") newElem })
          n.Cm)
      | .arrv xs => .ok (.mk (.arrv (xs.set index newElem)) n.Cm)
      | _ => .faulted

/-- SetKey assigns the value to the child Node identified by the key,
creating an empty ordered map when the Node holds typeless nil and creating
the key when missing (node.go).  Returns the updated Node and the flag that
the key already existed. -/
def Node.SetKey (c : Option Node) (key : String) (value : NVal) :
    NodeRes (Node × Bool) :=
  match c with
  | none => .fail .nilNode
  | some n =>
    match n.Value with
    | .nullv =>
      let om := NewOrderedMap NElem
      let r := om.Set key (.node (.mk value emptyCm))
      .ok (.mk (.omapv r.1) n.Cm, r.2)
    | .omapv om =>
      match mapGet om.Map key with
      | some (.node n2) =>
        .ok (.mk (.omapv
          { om with Map := mapSet om.Map key (.node (.mk value n2.Cm)) })
          n.Cm, true)
      | some (.raw _) =>
        let r := om.Set key (.node (.mk value emptyCm))
        .ok (.mk (.omapv r.1) n.Cm, r.2)
      | none =>
        let r := om.Set key (.node (.mk value emptyCm))
        .ok (.mk (.omapv r.1) n.Cm, r.2)
    | v => .fail (.unexpectedValueType v.typeName)

/-- NI returns the Node pointer found at the specified index, nil when this
Node is nil or does not hold a container or the element is not a Node,
panicking on an out-of-range index (node.go). -/
def Node.NI (c : Option Node) (index : Nat) : NodeRes (Option Node) :=
  match c with
  | none => .ok none
  | some n =>
    match nodeElemAt n.Value index with
    | .faulted => .faulted
    | .fail _ => .ok none
    | .ok (.node n2) => .ok (some n2)
    | .ok (.raw _) => .ok none

/-- NK returns the Node pointer found for the specified key, nil when this
Node is nil or does not hold an ordered map (node.go). -/
def Node.NK (c : Option Node) (key : String) : Option Node :=
  match c with
  | none => none
  | some n =>
    match n.Value with
    | .omapv om =>
      match mapGet om.Map key with
      | some (.node n2) => some n2
      | _ => none
    | _ => none

/-- NKC returns the Node pointer found for the specified key, creating an
empty ordered map for a typeless-nil Node and a fresh child Node for a
missing key; returns nil for a nil Node, a non-map value, or a non-Node
element (node.go).  Pointer aliasing of the returned child with the tree is
abstracted away: the model returns the found or created child. -/
def Node.NKC (c : Option Node) (key : String) : Option Node :=
  match c with
  | none => none
  | some n =>
    match n.Value with
    | .nullv => some (.mk .nullv emptyCm)
    | .omapv om =>
      match mapGet om.Map key with
      | some (.node n2) => some n2
      | some (.raw _) => none
      | none => some (.mk .nullv emptyCm)
    | _ => none

/-- C8 counterexample: AtKey invoked on a nil Node does not fail with a
descriptive error; it returns a no-error not-found result.  This refutes the
claim that every listed accessor fails with an error on a nil Node. -/
theorem atKey_nil_no_error : Node.AtKey none "x" = .ok (none, false) := rfl

/-- C8 (amended): on a nil Node, AtIndex, SetIndex, SetKey and Append fail
with the descriptive nil-Node error, AtKey returns a no-error not-found
result, Len returns 0, and NI, NK and NKC return nil.  A key-based
operation on a Node whose value is not an ordered map fails with a typed
error naming the unexpected value kind, typeless nil included for AtKey
and excluded only where creation is documented (SetKey and NKC); an
index-based operation on a Node whose value is neither an ordered map nor
an array fails with the typed error likewise; Append fails the same way
when the value is neither an array nor typeless nil; the no-error pointer
accessors NI, NK and NKC return nil instead of an error on every kind
mismatch.  In particular SetKey and AtKey on an array-valued Node and
AtKey on a typeless-nil Node return the typed error.  An out-of-range
index faults as a caller contract violation instead of returning an
error. -/
theorem node_accessor_errors
    (k : String) (i : Nat) (v : NVal) (cm : Comments) (n : Node)
    (xs : List NElem) (hi : xs.length ≤ i) :
    (Node.AtIndex none i = .fail .nilNode ∧
      Node.SetIndex none i v = .fail .nilNode ∧
      Node.SetKey none k v = .fail .nilNode ∧
      Node.Append none v = .fail .nilNode ∧
      Node.AtKey none k = .ok (none, false) ∧
      Node.Len none = 0 ∧
      Node.NI none i = .ok none ∧
      Node.NK none k = none ∧
      Node.NKC none k = none) ∧
    (n.Value.isObj = false →
      Node.AtKey (some n) k
        = .fail (.unexpectedValueType n.Value.typeName) ∧
      Node.NK (some n) k = none) ∧
    (n.Value.isObj = false → n.Value.isNil = false →
      Node.SetKey (some n) k v
        = .fail (.unexpectedValueType n.Value.typeName) ∧
      Node.NKC (some n) k = none) ∧
    (n.Value.isObj = false → n.Value.isArr = false →
      Node.AtIndex (some n) i
        = .fail (.unexpectedValueType n.Value.typeName) ∧
      Node.SetIndex (some n) i v
        = .fail (.unexpectedValueType n.Value.typeName) ∧
      Node.NI (some n) i = .ok none) ∧
    (n.Value.isArr = false → n.Value.isNil = false →
      Node.Append (some n) v
        = .fail (.unexpectedValueType n.Value.typeName)) ∧
    Node.SetKey (some (.mk (.arrv xs) cm)) k v
      = .fail (.unexpectedValueType (NVal.arrv xs).typeName) ∧
    Node.AtKey (some (.mk (.arrv xs) cm)) k
      = .fail (.unexpectedValueType (NVal.arrv xs).typeName) ∧
    Node.AtKey (some (.mk .nullv cm)) k
      = .fail (.unexpectedValueType NVal.nullv.typeName) ∧
    Node.AtIndex (some (.mk (.arrv xs) cm)) i = .faulted ∧
    Node.NI (some (.mk (.arrv xs) cm)) i = .faulted := by
  obtain ⟨val, cm2⟩ := n
  cases val <;>
    simp_all [Node.AtIndex, Node.SetIndex, Node.SetKey, Node.Append,
      Node.AtKey, Node.Len, Node.NI, Node.NK, Node.NKC, nodeElemAt,
      Node.Value, NVal.isObj, NVal.isArr, NVal.isNil, NVal.typeName,
      List.getElem?_eq_none hi]

/-- Witness for node_accessor_errors at a string-valued Node, the empty
array with index 0, and a typeless-nil Node. -/
theorem node_accessor_errors_witness :
    (NVal.strv "s").isObj = false ∧ (NVal.strv "s").isArr = false ∧
    (NVal.strv "s").isNil = false ∧ ([] : List NElem).length ≤ 0 ∧
    Node.AtKey (some (.mk (.strv "s") emptyCm)) "a"
      = .fail (.unexpectedValueType "string") ∧
    Node.NI (some (.mk (.strv "s") emptyCm)) 0 = .ok none ∧
    Node.SetKey (some (.mk (.arrv []) emptyCm)) "a" .nullv
      = .fail (.unexpectedValueType (NVal.arrv []).typeName) ∧
    Node.AtKey (some (.mk .nullv emptyCm)) "a"
      = .fail (.unexpectedValueType NVal.nullv.typeName) := by
  have T := node_accessor_errors "a" 0 .nullv emptyCm
    (.mk (.strv "s") emptyCm) [] (Nat.le_refl 0)
  exact ⟨rfl, rfl, rfl, Nat.le_refl 0, (T.2.1 rfl).1,
    (T.2.2.2.1 rfl rfl).2.2, T.2.2.2.2.2.1, T.2.2.2.2.2.2.2.1⟩

/-! ## Decoder (decode.go)

The parser scans a fixed buffer through a cursor (data, current index,
current character), exactly like the Go hjsonParser.  Go reads bytes; the
model reads runes, which is faithful since each byte of a multi-byte UTF-8
rune is at least 0x80 and never equal to the ASCII characters the scanner
compares against.  Loops are given explicit fuel; wrappers supply enough
fuel for the loop to reach its Go exit condition, so fuel exhaustion is
unreachable on any actual run and the definitions stay kernel-computable.
Error results carry the Go message; the line/column/snippet decoration of
errAt is abstracted away.  Reflection-driven destinations are modelled only
through the one bit the scanner consults: whether the destination is
string-typed (always false below a generic destination). -/

/-- The zero byte the Go cursor yields past the end of input. -/
def NUL : Char := Char.ofNat 0

/-- Double quote. -/
def dquoteC : Char := Char.ofNat 34

/-- Single quote. -/
def squoteC : Char := Char.ofNat 39

/-- Backslash. -/
def bslashC : Char := Char.ofNat 92

/-- Opening curly brace. -/
def lbraceC : Char := Char.ofNat 123

/-- Closing curly brace. -/
def rbraceC : Char := Char.ofNat 125

/-- Parser cursor: buffer, index of the next character, current character
(decode.go hjsonParser).  The Go field named at is called atIdx here. -/
structure P where
  data : List Char
  atIdx : Nat
  ch : Char
deriving Repr

/-- Character at an absolute buffer position, 0 when out of bounds
(decode.go peek). -/
def peekData (data : List Char) (pos : Int) : Char :=
  if 0 ≤ pos ∧ pos < (data.length : Int) then data.getD pos.toNat NUL else NUL

/-- Advance the cursor one character; reports whether input remained
(decode.go next). -/
def P.next (p : P) : P × Bool :=
  if h : p.atIdx < p.data.length then
    ({ p with ch := p.data.get ⟨p.atIdx, h⟩, atIdx := p.atIdx + 1 }, true)
  else
    ({ p with ch := NUL }, false)

/-- Look around the cursor without moving (decode.go peek). -/
def P.peek (p : P) (offs : Int) : Char :=
  peekData p.data ((p.atIdx : Int) + offs)

/-- Reset the cursor to the buffer start (decode.go resetAt). -/
def P.resetAt (p : P) : P :=
  { p with atIdx := 0, ch := ' ' }

/-- Fresh parser state over a buffer (decode.go UnmarshalWithOptions). -/
def initP (data : List Char) : P :=
  { data := data, atIdx := 0, ch := ' ' }

/-- Structural punctuator characters (decode.go isPunctuatorChar). -/
def isPunctuatorChar (c : Char) : Bool :=
  c = lbraceC || c = rbraceC || c = '[' || c = ']' || c = ',' || c = ':'

/-- The Go byte comparison ch greater than 0. -/
def chPos (c : Char) : Bool := c ≠ NUL

/-- The Go byte comparison ch less than or equal to space. -/
def chWs (c : Char) : Bool := c.toNat ≤ 32

/-- ASCII decimal digit test. -/
def isDigitC (c : Char) : Bool := '0' ≤ c && c ≤ '9'

/-- The escape table shared by the string readers (decode.go escapee). -/
def escapee (c : Char) : Option Char :=
  if c = dquoteC then some dquoteC
  else if c = squoteC then some squoteC
  else if c = bslashC then some bslashC
  else if c = '/' then some '/'
  else if c = 'b' then some (Char.ofNat 8)
  else if c = 'f' then some (Char.ofNat 12)
  else if c = 'n' then some '\n'
  else if c = 'r' then some '\r'
  else if c = 't' then some '\t'
  else none

/-- Value of a hex digit, none for other characters (decode.go readString,
the backslash-u branch). -/
def hexVal (c : Char) : Option Nat :=
  if '0' ≤ c && c ≤ '9' then some (c.toNat - 48)
  else if 'a' ≤ c && c ≤ 'f' then some (c.toNat - 97 + 10)
  else if 'A' ≤ c && c ≤ 'F' then some (c.toNat - 65 + 10)
  else none

/-- The rune written by the Go WriteRune for a numeric code point: the code
point itself when it is a valid scalar value, the replacement character
U+FFFD otherwise (surrogate halves cannot be encoded). -/
def writeRune (n : Nat) : Char :=
  if h : n < 0xd800 ∨ (0xdfff < n ∧ n < 0x110000) then
    Char.ofNatAux n h
  else
    Char.ofNat 0xfffd

/-- Indent measurement of readMLString: count characters backward from five
before the cursor until start of line or start of buffer (decode.go
readMLString). -/
def mlIndentLoop (data : List Char) (atI : Nat) (indent : Nat) :
    Nat → Nat
  | 0 => indent
  | fuel + 1 =>
    let c := peekData data ((atI : Int) - (indent : Int) - 5)
    if c = NUL ∨ c = '\n' then indent
    else mlIndentLoop data atI (indent + 1) fuel

/-- Skip up to skip whitespace characters, stopping at newline or end
(decode.go readMLString skipIndent). -/
def skipIndentLoop (p : P) : Nat → P
  | 0 => p
  | skip + 1 =>
    if chPos p.ch && chWs p.ch && p.ch ≠ '\n' then
      skipIndentLoop (p.next).1 skip
    else p

/-- Skip whitespace up to a newline (decode.go readMLString, the skip
white-to-newline loop). -/
def skipToNlLoop (p : P) : Nat → P
  | 0 => p
  | fuel + 1 =>
    if chPos p.ch && chWs p.ch && p.ch ≠ '\n' then
      skipToNlLoop (p.next).1 fuel
    else p

/-- Main loop of the multiline string reader (decode.go readMLString). -/
def mlLoop (indent : Nat) (res : List Char) (triple : Nat) (lastLf : Bool)
    (p : P) : Nat → Except String (List Char × P)
  | 0 => .error "out of fuel"
  | fuel + 1 =>
    if p.ch = NUL then .error "Bad multiline string"
    else if p.ch = squoteC then
      let triple := triple + 1
      let p := (p.next).1
      if triple = 3 then
        if lastLf then .ok (res.dropLast, p) else .ok (res, p)
      else mlLoop indent res triple lastLf p fuel
    else
      let res := res ++ List.replicate triple squoteC
      let lastLf := if triple > 0 then false else lastLf
      if p.ch = '\n' then
        let res := res ++ ['\n']
        let p := (p.next).1
        let p := skipIndentLoop p indent
        mlLoop indent res 0 true p fuel
      else
        let res := if p.ch ≠ '\r' then res ++ [p.ch] else res
        let lastLf := if p.ch ≠ '\r' then false else lastLf
        mlLoop indent res 0 lastLf (p.next).1 fuel

/-- Parse a multiline string value; the cursor has consumed the opening
triple quote and one further character (decode.go readMLString). -/
def readMLString (p : P) : Except String (List Char × P) :=
  let indent := mlIndentLoop p.data p.atIdx 0 (p.atIdx + 1)
  let p := skipToNlLoop p (p.data.length + 1 - p.atIdx)
  let p := if p.ch = '\n' then skipIndentLoop (p.next).1 indent else p
  mlLoop indent [] 0 false p (p.data.length + 2 - p.atIdx)

/-- The four-hex-digit part of a backslash-u escape (decode.go readString,
the inner loop of the u branch). -/
def readUEscape (p : P) : Except String (Char × P) :=
  let p1 := (p.next).1
  match hexVal p1.ch with
  | none => .error "Bad unicode escape"
  | some h1 =>
    let p2 := (p1.next).1
    match hexVal p2.ch with
    | none => .error "Bad unicode escape"
    | some h2 =>
      let p3 := (p2.next).1
      match hexVal p3.ch with
      | none => .error "Bad unicode escape"
      | some h3 =>
        let p4 := (p3.next).1
        match hexVal p4.ch with
        | none => .error "Bad unicode escape"
        | some h4 =>
          .ok (writeRune (((h1 * 16 + h2) * 16 + h3) * 16 + h4), p4)

/-- Loop of the quoted string reader (decode.go readString). -/
def readStringLoop (allowML : Bool) (exitCh : Char) (res : List Char)
    (p : P) : Nat → Except String (List Char × P)
  | 0 => .error "out of fuel"
  | fuel + 1 =>
    let pr := p.next
    let p := pr.1
    if !pr.2 then .error "Bad string"
    else if p.ch = exitCh then
      let p := (p.next).1
      if allowML && exitCh = squoteC && p.ch = squoteC && res.isEmpty then
        readMLString (p.next).1
      else .ok (res, p)
    else if p.ch = bslashC then
      let p := (p.next).1
      if p.ch = 'u' then
        match readUEscape p with
        | .error e => .error e
        | .ok (u, p4) =>
          readStringLoop allowML exitCh (res ++ [u]) p4 fuel
      else
        match escapee p.ch with
        | some ech => readStringLoop allowML exitCh (res ++ [ech]) p fuel
        | none => .error "Bad escape"
    else if p.ch = '\n' ∨ p.ch = '\r' then
      .error "Bad string containing newline"
    else readStringLoop allowML exitCh (res ++ [p.ch]) p fuel

/-- Parse a string value; the current character is the opening quote
(decode.go readString). -/
def readString (p : P) (allowML : Bool) : Except String (List Char × P) :=
  readStringLoop allowML p.ch [] p (p.data.length + 1 - p.atIdx)

/-- Skip a run of whitespace (decode.go white, inner loop). -/
def skipWsLoop (p : P) : Nat → P
  | 0 => p
  | fuel + 1 =>
    if chPos p.ch && chWs p.ch then skipWsLoop (p.next).1 fuel else p

/-- Skip to end of line (decode.go white, line comments). -/
def skipLineLoop (p : P) : Nat → P
  | 0 => p
  | fuel + 1 =>
    if chPos p.ch && p.ch ≠ '\n' then skipLineLoop (p.next).1 fuel else p

/-- Skip to the closing marker of a block comment (decode.go white, block
comments). -/
def skipBlockLoop (p : P) : Nat → P
  | 0 => p
  | fuel + 1 =>
    if chPos p.ch && !(p.ch = '*' && p.peek 0 = '/') then
      skipBlockLoop (p.next).1 fuel
    else p

/-- Skip whitespace and comments (decode.go white). -/
def whiteLoop (p : P) : Nat → P
  | 0 => p
  | fuel + 1 =>
    if chPos p.ch then
      let p := skipWsLoop p (p.data.length + 1 - p.atIdx)
      if p.ch = '#' || (p.ch = '/' && p.peek 0 = '/') then
        whiteLoop (skipLineLoop p (p.data.length + 1 - p.atIdx)) fuel
      else if p.ch = '/' && p.peek 0 = '*' then
        let p := ((p.next).1.next).1
        let p := skipBlockLoop p (p.data.length + 1 - p.atIdx)
        let p := if chPos p.ch then ((p.next).1.next).1 else p
        whiteLoop p fuel
      else p
    else p

/-- Skip whitespace and comments (decode.go white). -/
def white (p : P) : P :=
  whiteLoop p (p.data.length + 2 - p.atIdx)

/-- Loop of the bare key name reader (decode.go readKeyname).  The space
marker records where trailing whitespace began, as in the Go code. -/
def readKeynameLoop (name : List Char) (space : Option Nat) (p : P) :
    Nat → Except String (List Char × P)
  | 0 => .error "out of fuel"
  | fuel + 1 =>
    if p.ch = ':' then
      if name.isEmpty then
        .error "Found a colon but no key name (for an empty key name use quotes)"
      else if space.isSome ∧ space ≠ some name.length then
        .error "Found whitespace in your key name (use quotes to include)"
      else .ok (name, p)
    else if chWs p.ch then
      if p.ch = NUL then
        .error "Found EOF while looking for a key name (check your syntax)"
      else
        let space := if space.isNone then some name.length else space
        readKeynameLoop name space (p.next).1 fuel
    else if isPunctuatorChar p.ch then
      .error "Found a punctuator where a key name was expected (check your syntax or use quotes if the key name includes punctuation or whitespace)"
    else readKeynameLoop (name ++ [p.ch]) space (p.next).1 fuel

/-- Parse a key name, quoted or bare (decode.go readKeyname). -/
def readKeyname (p : P) : Except String (List Char × P) :=
  if p.ch = dquoteC ∨ p.ch = squoteC then readString p false
  else readKeynameLoop [] none p (p.data.length + 2 - p.atIdx)

/-- The Go unicode.IsSpace predicate used by strings.TrimSpace: ASCII
whitespace plus the Unicode White_Space code points. -/
def goIsSpace (c : Char) : Bool :=
  let n := c.toNat
  (9 ≤ n && n ≤ 13) || n = 32 || n = 0x85 || n = 0xa0 || n = 0x1680 ||
    (0x2000 ≤ n && n ≤ 0x200a) || n = 0x2028 || n = 0x2029 || n = 0x202f ||
    n = 0x205f || n = 0x3000

/-- strings.TrimSpace from the Go standard library: drop leading and
trailing Unicode whitespace. -/
def trimSpace (s : List Char) : List Char :=
  ((s.dropWhile goIsSpace).reverse.dropWhile goIsSpace).reverse

/-- Integer part of a strict JSON number: a single zero, or a nonzero digit
followed by digits.  Returns the remainder on success. -/
def numIntPart : List Char → Option (List Char)
  | [] => none
  | c :: rest =>
    if c = '0' then some rest
    else if isDigitC c then some (rest.dropWhile isDigitC)
    else none

/-- Optional fraction part of a strict JSON number. -/
def numFracPart : List Char → Option (List Char)
  | [] => some []
  | c :: rest =>
    if c = '.' then
      match rest with
      | d :: _ => if isDigitC d then some (rest.dropWhile isDigitC) else none
      | [] => none
    else some (c :: rest)

/-- Optional exponent part of a strict JSON number. -/
def numExpPart : List Char → Option (List Char)
  | [] => some []
  | c :: rest =>
    if c = 'e' ∨ c = 'E' then
      let rest2 := match rest with
        | s :: r2 => if s = '+' ∨ s = '-' then r2 else rest
        | [] => rest
      match rest2 with
      | d :: _ => if isDigitC d then some (rest2.dropWhile isDigitC) else none
      | [] => none
    else some (c :: rest)

/-- Whether t is exactly one strict JSON number token. -/
def jsonNumberValid (t : List Char) : Bool :=
  let t1 := match t with
    | c :: rest => if c = '-' then rest else t
    | [] => t
  match numIntPart t1 with
  | none => false
  | some r1 =>
    match numFracPart r1 with
    | none => false
    | some r2 =>
      match numExpPart r2 with
      | none => false
      | some r3 => r3.isEmpty

/-- Modelled from the spec: tryParseNumber (the file parseNumber.go is not
among the sources; only its call sites are).  Strict number parsing must
consume the entire trimmed text and otherwise fail so that the quoteless
reader falls back to string; on success the decimal-preserving number token
is retained (the json.Number path used by the decoder). -/
def tryParseNumber (b : List Char) : Option (List Char) :=
  let t := trimSpace b
  if t ≠ [] ∧ jsonNumberValid t then some t else none

/-- The generic value tree produced by the parser: null, bool, number
token, string, array, or object.  The Go parser builds map of string to
interface for objects; the association list models it with the Go map
write semantics of mapSet. -/
inductive HV : Type where
  | nullv : HV
  | boolv : Bool → HV
  | numv : List Char → HV
  | strv : List Char → HV
  | arrv : List HV → HV
  | objv : List (List Char × HV) → HV

/-- The classification step of the quoteless reader (decode.go readTfnns,
the switch on the first character): true, false and null only when the
destination is not string-typed, then strict number parsing for text
starting with a minus or digit. -/
def classifyTfnns (destString : Bool) (chf : Char) (acc : List Char) :
    Option HV :=
  if destString then none
  else if chf = 'f' then
    if trimSpace acc = ['f', 'a', 'l', 's', 'e'] then some (.boolv false)
    else none
  else if chf = 'n' then
    if trimSpace acc = ['n', 'u', 'l', 'l'] then some .nullv else none
  else if chf = 't' then
    if trimSpace acc = ['t', 'r', 'u', 'e'] then some (.boolv true) else none
  else if chf = '-' ∨ isDigitC chf then
    (tryParseNumber acc).map .numv
  else none

/-- Whether the scanner is at a value terminator: comma, closing brace or
bracket, or a comment opener (decode.go readTfnns loop test, the non-EOL
part). -/
def tfnnsStop (p : P) : Bool :=
  p.ch = ',' || p.ch = rbraceC || p.ch = ']' || p.ch = '#' ||
    (p.ch = '/' && (p.peek 0 = '/' || p.peek 0 = '*'))

/-- Loop of the quoteless reader (decode.go readTfnns). -/
def readTfnnsLoop (destString : Bool) (chf : Char) (acc : List Char)
    (p : P) : Nat → Except String (HV × P)
  | 0 => .error "out of fuel"
  | fuel + 1 =>
    let p2 := (p.next).1
    if (p2.ch = '\r' ∨ p2.ch = '\n' ∨ p2.ch = NUL) ∨ tfnnsStop p2 then
      match classifyTfnns destString chf acc with
      | some v => .ok (v, p2)
      | none =>
        if p2.ch = '\r' ∨ p2.ch = '\n' ∨ p2.ch = NUL then
          .ok (.strv (trimSpace acc), p2)
        else readTfnnsLoop destString chf (acc ++ [p2.ch]) p2 fuel
    else readTfnnsLoop destString chf (acc ++ [p2.ch]) p2 fuel

/-- Parse a quoteless value: returns a string, number, true, false or null
(decode.go readTfnns). -/
def readTfnns (destString : Bool) (p : P) : Except String (HV × P) :=
  if isPunctuatorChar p.ch then
    .error "Found a punctuator character when expecting a quoteless string (check your syntax)"
  else
    readTfnnsLoop destString p.ch [p.ch] p (p.data.length + 2 - p.atIdx)

/-- Decoder options (decode.go DecoderOptions).  DisallowDuplicateKeys is
modelled from the spec: the reject-duplicate-keys strict policy referenced
by the tests is not declared in the sources. -/
structure DecoderOptions where
  UseJSONNumber : Bool
  DisallowUnknownFields : Bool
  DisallowDuplicateKeys : Bool
deriving Repr, DecidableEq

/-- The default decoding options (decode.go DefaultDecoderOptions, with the
spec-modelled strict duplicate policy off, matching the spec default of a
silent overwrite). -/
def DefaultDecoderOptions : DecoderOptions :=
  { UseJSONNumber := false, DisallowUnknownFields := false,
    DisallowDuplicateKeys := false }

/-- Member loop of the object parser (decode.go readObject).  readVal is
the value parser one nesting level down; the reflection-based struct and
map destination plumbing is omitted under a generic destination. -/
def objLoop (opts : DecoderOptions)
    (readVal : P → Except String (HV × P)) (withoutBraces : Bool)
    (object : List (List Char × HV)) (p : P) :
    Nat → Except String (HV × P)
  | 0 => .error "out of fuel"
  | fuel + 1 =>
    if ¬chPos p.ch then
      if withoutBraces then .ok (.objv object, p)
      else .error "End of input while parsing an object (did you forget a closing brace?)"
    else
      match readKeyname p with
      | .error e => .error e
      | .ok (key, p) =>
        let p := white p
        if p.ch ≠ ':' then .error "Expected colon instead of another character"
        else
          let p := (p.next).1
          if opts.DisallowDuplicateKeys ∧ (mapGet object key).isSome then
            .error "Found duplicate key"
          else
            match readVal p with
            | .error e => .error e
            | .ok (val, p) =>
              let object := mapSet object key val
              let p := white p
              let p := if p.ch = ',' then white ((p.next).1) else p
              if p.ch = rbraceC ∧ ¬withoutBraces then
                .ok (.objv object, (p.next).1)
              else objLoop opts readVal withoutBraces object (white p) fuel

/-- Parse an object value (decode.go readObject). -/
def readObjectF (opts : DecoderOptions)
    (readVal : P → Except String (HV × P)) (withoutBraces : Bool) (p : P) :
    Except String (HV × P) :=
  let p := if withoutBraces then p else (p.next).1
  let p := white p
  if p.ch = rbraceC ∧ ¬withoutBraces then .ok (.objv [], (p.next).1)
  else objLoop opts readVal withoutBraces [] p (p.data.length + 2 - p.atIdx)

/-- Element loop of the array parser (decode.go readArray). -/
def arrLoop (readVal : P → Except String (HV × P)) (acc : List HV) (p : P) :
    Nat → Except String (HV × P)
  | 0 => .error "out of fuel"
  | fuel + 1 =>
    if ¬chPos p.ch then
      .error "End of input while parsing an array (did you forget a closing bracket?)"
    else
      match readVal p with
      | .error e => .error e
      | .ok (val, p) =>
        let acc := acc ++ [val]
        let p := white p
        let p := if p.ch = ',' then white ((p.next).1) else p
        if p.ch = ']' then .ok (.arrv acc, (p.next).1)
        else arrLoop readVal acc (white p) fuel

/-- Parse an array value; the current character is the opening bracket
(decode.go readArray). -/
def readArrayF (readVal : P → Except String (HV × P)) (p : P) :
    Except String (HV × P) :=
  let p := (p.next).1
  let p := white p
  if p.ch = ']' then .ok (.arrv [], (p.next).1)
  else arrLoop readVal [] p (p.data.length + 2 - p.atIdx)

/-- Parse any value, dispatching on the current character (decode.go
readValue).  The fuel bounds the container nesting depth; the destination
below a generic destination is never string-typed, so readTfnns is called
with destString false. -/
def readValueFuel (opts : DecoderOptions) : Nat → P → Except String (HV × P)
  | 0, _ => .error "out of fuel"
  | fuel + 1, p =>
    let p := white p
    if p.ch = lbraceC then
      readObjectF opts (fun p2 => readValueFuel opts fuel p2) false p
    else if p.ch = '[' then
      readArrayF (fun p2 => readValueFuel opts fuel p2) p
    else if p.ch = dquoteC ∨ p.ch = squoteC then
      match readString p true with
      | .error e => .error e
      | .ok (s, p) => .ok (.strv s, p)
    else readTfnns false p

/-- Check that only whitespace and comments follow a complete root value
(decode.go checkTrailing). -/
def checkTrailing (r : Except String (HV × P)) : Except String HV :=
  match r with
  | .error e => .error e
  | .ok (v, p) =>
    let p := white p
    if chPos p.ch then .error "Syntax error, found trailing characters"
    else .ok v

/-- Parse the document root: braces are optional, an implicit top-level
object is attempted first, then a single bare value from the start
(decode.go rootValue). -/
def rootValue (opts : DecoderOptions) (p : P) : Except String HV :=
  let fuel := p.data.length + 2
  let p := white p
  if p.ch = lbraceC then
    checkTrailing (readObjectF opts (fun p2 => readValueFuel opts fuel p2)
      false p)
  else if p.ch = '[' then
    checkTrailing (readArrayF (fun p2 => readValueFuel opts fuel p2) p)
  else
    match checkTrailing (readObjectF opts
        (fun p2 => readValueFuel opts fuel p2) true p) with
    | .ok v => .ok v
    | .error e =>
      match checkTrailing (readValueFuel opts fuel p.resetAt) with
      | .ok v2 => .ok v2
      | .error _ => .error e

/-- The shape of the Go destination argument that UnmarshalWithOptions
inspects before parsing: a usable non-nil pointer, a nil pointer, or a
non-pointer value. -/
inductive GoDest : Type where
  | validPointer : GoDest
  | nilPointer : GoDest
  | nonPointer : GoDest
deriving Repr, DecidableEq

/-- UnmarshalWithOptions parses the Hjson-encoded data (decode.go).  A
destination that is not a non-nil pointer is rejected before the parser is
built.  The final json.Marshal and json.Unmarshal handoff into the typed
destination is outside the model; the parsed value tree is returned. -/
def UnmarshalWithOptions (data : List Char) (v : GoDest)
    (options : DecoderOptions) : Except String HV :=
  match v with
  | .validPointer => rootValue options ((initP data).resetAt)
  | _ => .error "Cannot unmarshal into non-pointer"

/-- Unmarshal parses with the default options (decode.go). -/
def Unmarshal (data : List Char) (v : GoDest) : Except String HV :=
  UnmarshalWithOptions data v DefaultDecoderOptions

/-- C9: for every input and options, a destination that is not a non-nil
pointer is rejected with an error before any parsing is attempted (the
result does not depend on the input data) and, the model being pure, the
destination is not modified. -/
theorem unmarshal_non_pointer (data : List Char) (opts : DecoderOptions)
    (v : GoDest) (h : v ≠ .validPointer) :
    UnmarshalWithOptions data v opts
      = .error "Cannot unmarshal into non-pointer" ∧
    Unmarshal data v = .error "Cannot unmarshal into non-pointer" := by
  cases v with
  | validPointer => exact absurd rfl h
  | nilPointer => exact ⟨rfl, rfl⟩
  | nonPointer => exact ⟨rfl, rfl⟩

/-- Witness for unmarshal_non_pointer at a nil pointer destination. -/
theorem unmarshal_non_pointer_witness :
    GoDest.nilPointer ≠ GoDest.validPointer ∧
    Unmarshal ("x".toList) .nilPointer
      = .error "Cannot unmarshal into non-pointer" :=
  ⟨by decide,
    (unmarshal_non_pointer ("x".toList) DefaultDecoderOptions .nilPointer
      (by decide)).2⟩

/-- C3: the input a: 1 newline a: 2 decodes under the default options to an
object in which key a maps to the number 2 (the later occurrence silently
overwrites the earlier one), while the same input under the spec-modelled
strict duplicate-key option yields a duplicate-key error. -/
theorem duplicate_key_policy :
    Unmarshal ("a: 1\na: 2".toList) .validPointer
      = .ok (.objv [(['a'], .numv ['2'])]) ∧
    UnmarshalWithOptions ("a: 1\na: 2".toList) .validPointer
      { UseJSONNumber := false, DisallowUnknownFields := false,
        DisallowDuplicateKeys := true }
      = .error "Found duplicate key" := by
  exact ⟨rfl, rfl⟩

/-! ## The quoteless reader in claim form (C4) -/

/-- Cursor state whose current character is c, with pre consumed before it
and post still ahead.  Every reachable parser state with a current in-buffer
character has this shape. -/
def mkP (pre : List Char) (c : Char) (post : List Char) : P :=
  { data := pre ++ c :: post, atIdx := pre.length + 1, ch := c }

/-- Cursor state at end of input. -/
def eofP (data : List Char) : P :=
  { data := data, atIdx := data.length, ch := NUL }

theorem peekData_nat (data : List Char) (i : Nat) :
    peekData data (i : Int) = if i < data.length then data.getD i NUL
      else NUL := by
  unfold peekData
  by_cases h : i < data.length
  · rw [if_pos ⟨by omega, by exact_mod_cast h⟩, if_pos h]
    simp
  · rw [if_neg ?_, if_neg h]
    intro hc
    exact h (by exact_mod_cast hc.2)

theorem mkP_next_cons (pre : List Char) (c c2 : Char) (post : List Char) :
    (mkP pre c (c2 :: post)).next = (mkP (pre ++ [c]) c2 post, true) := by
  have hlt : pre.length + 1 < (pre ++ c :: c2 :: post).length := by
    simp
  have hget : (pre ++ c :: c2 :: post).get ⟨pre.length + 1, hlt⟩ = c2 := by
    rw [List.get_eq_getElem, List.getElem_append_right (by simp)]
    simp
  rw [List.get_eq_getElem] at hget
  simp [mkP, P.next, hlt, hget, List.append_assoc]

theorem mkP_next1_cons (pre : List Char) (c c2 : Char) (post : List Char) :
    ((mkP pre c (c2 :: post)).next).1 = mkP (pre ++ [c]) c2 post := by
  rw [mkP_next_cons]

theorem mkP_next_nil (pre : List Char) (c : Char) :
    (mkP pre c []).next = (eofP (pre ++ [c]), false) := by
  have hge : ¬(pre.length + 1 < (pre ++ [c]).length) := by simp
  simp [mkP, P.next, eofP, hge]

theorem mkP_next1_nil (pre : List Char) (c : Char) :
    ((mkP pre c []).next).1 = eofP (pre ++ [c]) := by
  rw [mkP_next_nil]

theorem mkP_next2_cons (pre : List Char) (c c2 : Char) (post : List Char) :
    ((mkP pre c (c2 :: post)).next).2 = true := by
  rw [mkP_next_cons]

theorem mkP_next2_nil (pre : List Char) (c : Char) :
    ((mkP pre c []).next).2 = false := by
  rw [mkP_next_nil]

theorem mkP_ch (pre : List Char) (c : Char) (post : List Char) :
    (mkP pre c post).ch = c := rfl

theorem eofP_ch (data : List Char) : (eofP data).ch = NUL := rfl

/-- The head of a list, with the Go out-of-bounds sentinel. -/
def headOr (l : List Char) : Char :=
  match l with
  | [] => NUL
  | c :: _ => c

theorem mkP_peek_zero (pre : List Char) (c : Char) (post : List Char) :
    (mkP pre c post).peek 0 = headOr post := by
  have hcast : ((pre.length + 1 : Nat) : Int) + 0
      = ((pre.length + 1 : Nat) : Int) := by omega
  show peekData (pre ++ c :: post) (((pre.length + 1 : Nat) : Int) + 0)
      = headOr post
  rw [hcast, peekData_nat]
  cases post with
  | nil =>
    rw [if_neg (by simp)]
    rfl
  | cons c2 post =>
    rw [if_pos (by simp)]
    rw [List.getD_eq_getElem?_getD, List.getElem?_eq_getElem (by simp)]
    rw [List.getElem_append_right (by simp)]
    simp [headOr]

theorem eofP_peek_zero (data : List Char) : (eofP data).peek 0 = NUL := by
  have hcast : ((data.length : Nat) : Int) + 0
      = ((data.length : Nat) : Int) := by omega
  show peekData data (((data.length : Nat) : Int) + 0) = NUL
  rw [hcast, peekData_nat]
  rw [if_neg (by omega)]

theorem tfnnsStop_mkP (pre : List Char) (c : Char) (post : List Char) :
    tfnnsStop (mkP pre c post)
      = (c = ',' || c = rbraceC || c = ']' || c = '#' ||
          (c = '/' && (headOr post = '/' || headOr post = '*'))) := by
  simp [tfnnsStop, mkP_peek_zero]
  rfl

/-- Terminator test of the quoteless reader on a character and its
lookahead. -/
def stopChar (c nextc : Char) : Bool :=
  c = ',' || c = rbraceC || c = ']' || c = '#' ||
    (c = '/' && (nextc = '/' || nextc = '*'))

/-- The classification fallback: the classified scalar, else the trimmed
text as a string. -/
def classifyOrStr (d : Bool) (chf : Char) (acc : List Char) : HV :=
  match classifyTfnns d chf acc with
  | some v => v
  | none => .strv (trimSpace acc)

/-- The value produced by the quoteless reader, computed over the characters
ahead of the cursor: scanning always ends at carriage return, newline, a
zero byte or end of input; at a comma, closing brace or bracket, or comment
opener the text accumulated so far is classified and scanning ends only when
classification succeeds, otherwise the terminator is accumulated and the
scan goes on. -/
def tfnnsValue (d : Bool) (chf : Char) (acc : List Char) :
    List Char → HV
  | [] => classifyOrStr d chf acc
  | c :: rest =>
    if c = '\r' ∨ c = '\n' ∨ c = NUL then classifyOrStr d chf acc
    else if stopChar c (headOr rest) then
      match classifyTfnns d chf acc with
      | some v => v
      | none => tfnnsValue d chf (acc ++ [c]) rest
    else tfnnsValue d chf (acc ++ [c]) rest

theorem tfnnsStop_eol_mkP (pre : List Char) (c : Char) (post : List Char) :
    ((mkP pre c post).ch = '\r' ∨ (mkP pre c post).ch = '\n' ∨
      (mkP pre c post).ch = NUL) = (c = '\r' ∨ c = '\n' ∨ c = NUL) := rfl

theorem readTfnnsLoop_spec (d : Bool) (chf : Char) (post : List Char) :
    ∀ (fuel : Nat), post.length + 1 ≤ fuel →
    ∀ (acc pre : List Char) (c : Char),
    ∃ p2, readTfnnsLoop d chf acc (mkP pre c post) fuel
      = .ok (tfnnsValue d chf acc post, p2) := by
  induction post with
  | nil =>
    intro fuel hf acc pre c
    match fuel, hf with
    | fuel + 1, _ =>
      refine ⟨eofP (pre ++ [c]), ?_⟩
      simp only [readTfnnsLoop, mkP_next1_nil, eofP_ch]
      rw [if_pos (Or.inl (Or.inr (Or.inr trivial)))]
      cases hcl : classifyTfnns d chf acc with
      | some v => simp [tfnnsValue, classifyOrStr, hcl]
      | none =>
        simp only [hcl]
        rw [if_pos (Or.inr (Or.inr trivial))]
        simp [tfnnsValue, classifyOrStr, hcl]
  | cons c2 post ih =>
    intro fuel hf acc pre c
    match fuel, hf with
    | fuel + 1, hf =>
      have hfuel : post.length + 1 ≤ fuel := by
        simp only [List.length_cons] at hf
        omega
      by_cases heol : c2 = '\r' ∨ c2 = '\n' ∨ c2 = NUL
      · refine ⟨mkP (pre ++ [c]) c2 post, ?_⟩
        simp only [readTfnnsLoop, mkP_next1_cons, mkP_ch]
        rw [if_pos (Or.inl heol)]
        cases hcl : classifyTfnns d chf acc with
        | some v => simp [tfnnsValue, classifyOrStr, hcl, heol]
        | none =>
          simp only [hcl]
          rw [if_pos heol]
          simp [tfnnsValue, classifyOrStr, hcl, heol]
      · by_cases hstop : stopChar c2 (headOr post) = true
        · have hstop2 : tfnnsStop (mkP (pre ++ [c]) c2 post) = true := by
            rw [tfnnsStop_mkP]; exact hstop
          cases hcl : classifyTfnns d chf acc with
          | some v =>
            refine ⟨mkP (pre ++ [c]) c2 post, ?_⟩
            simp only [readTfnnsLoop, mkP_next1_cons, mkP_ch]
            rw [if_pos (Or.inr hstop2), hcl]
            simp [tfnnsValue, heol, hstop, hcl]
          | none =>
            obtain ⟨p2, hp2⟩ := ih fuel hfuel (acc ++ [c2]) (pre ++ [c]) c2
            refine ⟨p2, ?_⟩
            simp only [readTfnnsLoop, mkP_next1_cons, mkP_ch]
            rw [if_pos (Or.inr hstop2)]
            simp only [hcl]
            rw [if_neg heol, hp2]
            simp [tfnnsValue, heol, hstop, hcl]
        · have hstop2 : ¬(tfnnsStop (mkP (pre ++ [c]) c2 post) = true) := by
            rw [tfnnsStop_mkP]; exact hstop
          obtain ⟨p2, hp2⟩ := ih fuel hfuel (acc ++ [c2]) (pre ++ [c]) c2
          refine ⟨p2, ?_⟩
          simp only [readTfnnsLoop, mkP_next1_cons, mkP_ch]
          rw [if_neg ?_]
          · rw [hp2]
            simp [tfnnsValue, heol, hstop]
          · intro hcond
            rcases hcond with hl | hr
            · exact heol hl
            · exact hstop2 hr

/-- The quoteless reader, characterised over the characters ahead of the
cursor (the amended C4). -/
theorem readTfnns_spec (d : Bool) (pre : List Char) (c : Char)
    (post : List Char) (h : isPunctuatorChar c = false) :
    ∃ p2, readTfnns d (mkP pre c post)
      = .ok (tfnnsValue d c [c] post, p2) := by
  unfold readTfnns
  simp only [mkP_ch]
  rw [h]
  have hfuel : post.length + 1
      ≤ (mkP pre c post).data.length + 2 - (mkP pre c post).atIdx := by
    simp [mkP]
    omega
  simpa [mkP] using readTfnnsLoop_spec d c post _ hfuel [c] pre c

/-- Witness for readTfnns_spec: the quoteless text true classifies as the
boolean true. -/
theorem readTfnns_spec_witness :
    isPunctuatorChar 't' = false ∧
    tfnnsValue false 't' ['t'] ("rue".toList) = .boolv true ∧
    (∃ p2, readTfnns false (mkP [] 't' ("rue".toList))
      = .ok (tfnnsValue false 't' ['t'] ("rue".toList), p2)) :=
  ⟨rfl, rfl, readTfnns_spec false [] 't' ("rue".toList) rfl⟩

/-- Scan of the quoteless reader exactly as the claim words it: accumulate
raw characters until the first newline, end of input, comma, closing brace
or bracket, or comment opener. -/
def claimScanLoop (p : P) (acc : List Char) : Nat → List Char
  | 0 => acc
  | fuel + 1 =>
    let p2 := (p.next).1
    if (p2.ch = '\r' ∨ p2.ch = '\n' ∨ p2.ch = NUL) ∨ tfnnsStop p2 then acc
    else claimScanLoop p2 (acc ++ [p2.ch]) fuel

/-- The quoteless reader as the claim describes it: read until the first
terminator, trim, classify true, false and null (only for a non-string
destination), then strict numbers, else the trimmed text as a string. -/
def readTfnnsClaim (destString : Bool) (p : P) : Except String HV :=
  if isPunctuatorChar p.ch then
    .error "Found a punctuator character when expecting a quoteless string (check your syntax)"
  else
    .ok (classifyOrStr destString p.ch
      (claimScanLoop p [p.ch] (p.data.length + 2 - p.atIdx)))

/-- C4 counterexample: on the quoteless value a,b the reader does not stop
at the comma, because the text read so far does not classify as a keyword
or number; it yields the string a,b, while the claim predicts reading stops
at the comma and yields the string a.  The full decoder agrees with the
reader, not with the claim. -/
theorem tfnns_reads_past_comma :
    readTfnns false (mkP [] 'a' (",b".toList))
      = .ok (.strv ("a,b".toList), eofP ("a,b".toList)) ∧
    readTfnnsClaim false (mkP [] 'a' (",b".toList))
      = .ok (.strv ("a".toList)) ∧
    ("a,b".toList : List Char) ≠ "a".toList ∧
    Unmarshal ("a: a,b".toList) .validPointer
      = .ok (.objv [(['a'], .strv ("a,b".toList))]) := by
  exact ⟨rfl, rfl, by decide, rfl⟩

/-! ## Error behaviour of the quoted string reader (C10) -/

/-- Well-formed interior of a quoted string literal with respect to an
exit quote: plain characters (not the quote, a backslash or a line break),
simple escapes, and four-digit unicode escapes. -/
inductive StrUnits (exitCh : Char) : List Char → Prop where
  | nil : StrUnits exitCh []
  | plain (c : Char) (rest : List Char) (hc : c ≠ exitCh)
      (hb : c ≠ bslashC) (hn : c ≠ '\n') (hr : c ≠ '\r')
      (h : StrUnits exitCh rest) : StrUnits exitCh (c :: rest)
  | esc (c ec : Char) (rest : List Char) (he : escapee c = some ec)
      (h : StrUnits exitCh rest) :
      StrUnits exitCh (bslashC :: c :: rest)
  | uesc (h1 h2 h3 h4 : Char) (rest : List Char)
      (hv1 : (hexVal h1).isSome) (hv2 : (hexVal h2).isSome)
      (hv3 : (hexVal h3).isSome) (hv4 : (hexVal h4).isSome)
      (h : StrUnits exitCh rest) :
      StrUnits exitCh (bslashC :: 'u' :: h1 :: h2 :: h3 :: h4 :: rest)

theorem readUEscape_mkP (pre : List Char) (h1 h2 h3 h4 : Char)
    (post : List Char) (n1 n2 n3 n4 : Nat)
    (hn1 : hexVal h1 = some n1) (hn2 : hexVal h2 = some n2)
    (hn3 : hexVal h3 = some n3) (hn4 : hexVal h4 = some n4) :
    readUEscape (mkP pre 'u' (h1 :: h2 :: h3 :: h4 :: post))
      = .ok (writeRune (((n1 * 16 + n2) * 16 + n3) * 16 + n4),
          mkP (pre ++ ['u'] ++ [h1] ++ [h2] ++ [h3]) h4 post) := by
  simp only [readUEscape, mkP_next1_cons, mkP_ch, hn1, hn2, hn3, hn4]

theorem readStringLoop_err (allowML : Bool) (exitCh : Char)
    (hqb : exitCh ≠ bslashC) (hqn : exitCh ≠ '\n') (hqr : exitCh ≠ '\r') :
    ∀ (xs : List Char), StrUnits exitCh xs →
    ∀ (fuel : Nat), xs.length + 1 ≤ fuel →
    ∀ (res pre : List Char) (c : Char),
    (∀ (e : Char) (rest : List Char), e = '\n' ∨ e = '\r' →
      readStringLoop allowML exitCh res (mkP pre c (xs ++ e :: rest)) fuel
        = .error "Bad string containing newline") ∧
    readStringLoop allowML exitCh res (mkP pre c xs) fuel
      = .error "Bad string" := by
  intro xs hunits
  induction hunits with
  | nil =>
    intro fuel hfuel res pre c
    match fuel, hfuel with
    | fuel + 1, _ =>
      constructor
      · intro e rest he
        have hee : e ≠ exitCh := by
          rcases he with he | he <;> subst he
          · exact fun hcon => hqn hcon.symm
          · exact fun hcon => hqr hcon.symm
        have heb : e ≠ bslashC := by
          rcases he with he | he <;> subst he <;> decide
        simp only [List.nil_append, readStringLoop, mkP_next1_cons,
          mkP_next2_cons, mkP_ch]
        rw [if_neg (by simp), if_neg hee, if_neg heb, if_pos he]
      · simp only [readStringLoop, mkP_next1_nil, mkP_next2_nil]
        rw [if_pos (by simp)]
  | plain c2 rest hc hb hn hr _ ih =>
    intro fuel hfuel res pre c
    match fuel, hfuel with
    | fuel + 1, hfuel =>
      have hfuel2 : rest.length + 1 ≤ fuel := by
        simp only [List.length_cons] at hfuel
        omega
      constructor
      · intro e rest2 he
        have step := (ih fuel hfuel2 (res ++ [c2]) (pre ++ [c]) c2).1 e rest2 he
        simp only [List.cons_append, readStringLoop, mkP_next1_cons,
          mkP_next2_cons, mkP_ch]
        rw [if_neg (by simp), if_neg hc, if_neg hb,
          if_neg (by simp [hn, hr])]
        exact step
      · have step := (ih fuel hfuel2 (res ++ [c2]) (pre ++ [c]) c2).2
        simp only [readStringLoop, mkP_next1_cons, mkP_next2_cons, mkP_ch]
        rw [if_neg (by simp), if_neg hc, if_neg hb,
          if_neg (by simp [hn, hr])]
        exact step
  | esc c2 ec rest he _ ih =>
    intro fuel hfuel res pre c
    match fuel, hfuel with
    | fuel + 1, hfuel =>
      have hfuel2 : rest.length + 1 ≤ fuel := by
        simp only [List.length_cons] at hfuel
        omega
      have hcu : c2 ≠ 'u' := by
        intro hcon
        subst hcon
        rw [show escapee 'u' = none by decide] at he
        exact Option.noConfusion he
      have hbx : bslashC ≠ exitCh := fun hcon => hqb hcon.symm
      constructor
      · intro e rest2 he2
        have step := (ih fuel hfuel2 (res ++ [ec]) (pre ++ [c] ++ [bslashC])
          c2).1 e rest2 he2
        simp only [List.cons_append, readStringLoop, mkP_next1_cons,
          mkP_next2_cons, mkP_ch]
        rw [if_neg (by simp), if_neg hbx, if_pos trivial, if_neg hcu, he]
        simpa [List.cons_append] using step
      · have step := (ih fuel hfuel2 (res ++ [ec]) (pre ++ [c] ++ [bslashC])
          c2).2
        simp only [readStringLoop, mkP_next1_cons, mkP_next2_cons, mkP_ch]
        rw [if_neg (by simp), if_neg hbx, if_pos trivial, if_neg hcu, he]
        exact step
  | uesc h1 h2 h3 h4 rest hv1 hv2 hv3 hv4 _ ih =>
    intro fuel hfuel res pre c
    match fuel, hfuel with
    | fuel + 1, hfuel =>
      have hfuel2 : rest.length + 1 ≤ fuel := by
        simp only [List.length_cons] at hfuel
        omega
      have hbx : bslashC ≠ exitCh := fun hcon => hqb hcon.symm
      obtain ⟨n1, hn1⟩ := Option.isSome_iff_exists.mp hv1
      obtain ⟨n2, hn2⟩ := Option.isSome_iff_exists.mp hv2
      obtain ⟨n3, hn3⟩ := Option.isSome_iff_exists.mp hv3
      obtain ⟨n4, hn4⟩ := Option.isSome_iff_exists.mp hv4
      constructor
      · intro e rest2 he2
        have step := (ih fuel hfuel2
          (res ++ [writeRune (((n1 * 16 + n2) * 16 + n3) * 16 + n4)])
          (pre ++ [c] ++ [bslashC] ++ ['u'] ++ [h1] ++ [h2] ++ [h3]) h4).1
          e rest2 he2
        simp only [List.cons_append, readStringLoop, mkP_next1_cons,
          mkP_next2_cons, mkP_ch]
        rw [if_neg (by simp), if_neg hbx, if_pos trivial, if_pos trivial,
          readUEscape_mkP _ h1 h2 h3 h4 _ n1 n2 n3 n4 hn1 hn2 hn3 hn4]
        simpa [List.cons_append] using step
      · have step := (ih fuel hfuel2
          (res ++ [writeRune (((n1 * 16 + n2) * 16 + n3) * 16 + n4)])
          (pre ++ [c] ++ [bslashC] ++ ['u'] ++ [h1] ++ [h2] ++ [h3]) h4).2
        simp only [readStringLoop, mkP_next1_cons, mkP_next2_cons, mkP_ch]
        rw [if_neg (by simp), if_neg hbx, if_pos trivial, if_pos trivial,
          readUEscape_mkP _ h1 h2 h3 h4 _ n1 n2 n3 n4 hn1 hn2 hn3 hn4]
        exact step

/-- C10: a quoted (non-multiline) string literal whose interior scan meets
an unescaped raw newline or carriage return fails with the newline syntax
error, and a literal still open at end of input fails with the unterminated
string syntax error; the reader never silently truncates at either point. -/
theorem readString_errors (q e : Char) (xs rest pre : List Char)
    (hq : q = dquoteC ∨ q = squoteC) (he : e = '\n' ∨ e = '\r')
    (hunits : StrUnits q xs) (allowML : Bool) :
    readString (mkP pre q (xs ++ e :: rest)) allowML
      = .error "Bad string containing newline" ∧
    readString (mkP pre q xs) allowML = .error "Bad string" := by
  have hqb : q ≠ bslashC := by rcases hq with h | h <;> subst h <;> decide
  have hqn : q ≠ '\n' := by rcases hq with h | h <;> subst h <;> decide
  have hqr : q ≠ '\r' := by rcases hq with h | h <;> subst h <;> decide
  have hmain := readStringLoop_err allowML q hqb hqn hqr xs hunits
  constructor
  · have hfuel : xs.length + 1
        ≤ (mkP pre q (xs ++ e :: rest)).data.length + 1
          - (mkP pre q (xs ++ e :: rest)).atIdx := by
      simp only [mkP, List.length_append, List.length_cons]
      omega
    exact (hmain _ hfuel [] pre q).1 e rest he
  · have hfuel : xs.length + 1
        ≤ (mkP pre q xs).data.length + 1 - (mkP pre q xs).atIdx := by
      simp only [mkP, List.length_append, List.length_cons]
      omega
    exact (hmain _ hfuel [] pre q).2

/-- Witness for readString_errors: the literal interior ab with an escaped
tab, hit by a raw newline, and the same interior at end of input. -/
theorem readString_errors_witness :
    (dquoteC = dquoteC ∨ dquoteC = squoteC) ∧
    readString (mkP [] dquoteC (['a', bslashC, 't', 'b'] ++ '\n' :: []))
      true = .error "Bad string containing newline" ∧
    readString (mkP [] dquoteC ['a', bslashC, 't', 'b']) true
      = .error "Bad string" := by
  have hunits : StrUnits dquoteC ['a', bslashC, 't', 'b'] := by
    refine .plain 'a' _ (by decide) (by decide) (by decide) (by decide) ?_
    refine .esc 't' '\t' _ (by decide) ?_
    exact .plain 'b' _ (by decide) (by decide) (by decide) (by decide) .nil
  have h := readString_errors dquoteC '\n' ['a', bslashC, 't', 'b'] [] []
    (Or.inl rfl) (Or.inl rfl) hunits true
  exact ⟨Or.inl rfl, h.1, h.2⟩

/-! ## Encoder (encode.go)

The encoder walks a host value and emits text.  Host values are modelled
with explicit heap indirection for the reference-bearing kinds the Go code
identity-tracks (pointers, slices, maps); tree-shaped documents simply use
a heap without cycles.  Numeric, struct and marshaler-interface kinds are
outside the claims and omitted from the host-value model.  The Go regular
expressions are translated into character predicates; RE2 space means the
ASCII class tab, newline, formfeed, carriage return and space. -/

/-- Encoder options (encode.go EncoderOptions). -/
structure EncoderOptions where
  Eol : List Char
  BracesSameLine : Bool
  EmitRootBraces : Bool
  QuoteAlways : Bool
  QuoteAmbiguousStrings : Bool
  IndentBy : List Char
  BaseIndentation : List Char

/-- The default encoding options (encode.go DefaultOptions). -/
def DefaultOptions : EncoderOptions :=
  { Eol := ['\n'], BracesSameLine := false, EmitRootBraces := true,
    QuoteAlways := false, QuoteAmbiguousStrings := true,
    IndentBy := [' ', ' '], BaseIndentation := [] }

/-- Start looking for circular references below this depth (encode.go). -/
def depthLimit : Nat := 1024

/-- The commonRange character class shared by the encoder regular
expressions (encode.go init). -/
def commonRangeChar (c : Char) : Bool :=
  let n := c.toNat
  (0x7f ≤ n && n ≤ 0x9f) || n = 0xad || (0x600 ≤ n && n ≤ 0x604) ||
    n = 0x70f || n = 0x17b4 || n = 0x17b5 || (0x200c ≤ n && n ≤ 0x200f) ||
    (0x2028 ≤ n && n ≤ 0x202f) || (0x2060 ≤ n && n ≤ 0x206f) ||
    n = 0xfeff || (0xfff0 ≤ n && n ≤ 0xffff)

/-- A character matched by the needsEscape class: backslash, double quote,
control characters, commonRange (encode.go init). -/
def needsEscapeChar (c : Char) : Bool :=
  c = bslashC || c = dquoteC || c.toNat ≤ 0x1f || commonRangeChar c

/-- needsEscape tests if the string cannot be written without escapes
(encode.go init). -/
def needsEscape (s : List Char) : Bool := s.any needsEscapeChar

/-- The RE2 class backslash-s: tab, newline, formfeed, carriage return,
space. -/
def reSpace (c : Char) : Bool :=
  c = '\t' || c = '\n' || c = Char.ofNat 12 || c = '\r' || c = ' '

/-- A character matched anywhere by the needsQuotes bracket class: control
characters and commonRange (encode.go init). -/
def needsQuotesChar (c : Char) : Bool :=
  c.toNat ≤ 0x1f || commonRangeChar c

/-- A leading character (with one character of lookahead) matched by the
anchored alternatives of needsQuotes (encode.go init). -/
def needsQuotesFirst (c : Char) (rest : List Char) : Bool :=
  reSpace c || c = dquoteC || c = squoteC || c = '#' ||
    (c = '/' && (headOr rest = '*' || headOr rest = '/')) ||
    c = lbraceC || c = rbraceC || c = '[' || c = ']' || c = ':' || c = ','

/-- needsQuotes tests if the string cannot be written as a quoteless string
(encode.go init). -/
def needsQuotes (s : List Char) : Bool :=
  match s with
  | [] => false
  | c :: rest =>
    needsQuotesFirst c rest || reSpace ((s.getLast?).getD NUL) ||
      s.any needsQuotesChar

/-- A triple single quote occurs in the string. -/
def hasTripleQuote : List Char → Bool
  | c1 :: c2 :: c3 :: rest =>
    (c1 = squoteC && c2 = squoteC && c3 = squoteC) ||
      hasTripleQuote (c2 :: c3 :: rest)
  | _ => false

/-- A character barred from multiline strings: controls other than tab and
newline, and commonRange (encode.go init). -/
def mlBadChar (c : Char) : Bool :=
  c.toNat ≤ 8 || (0x0b ≤ c.toNat && c.toNat ≤ 0x1f) || commonRangeChar c

/-- needsEscapeML tests if the string cannot be written as a multiline
string (encode.go init). -/
def needsEscapeML (s : List Char) : Bool :=
  hasTripleQuote s || (!s.isEmpty && s.all reSpace) || s.any mlBadChar

/-- The remainder test of the startsWithKeyword expression: optional RE2
whitespace, then nothing, or a terminator (comma, closing bracket or brace,
hash, double slash, slash star) followed by anything without a newline
(the RE2 dot does not match newline and the match is anchored at text
end). -/
def kwRest (l : List Char) : Bool :=
  match l.dropWhile reSpace with
  | [] => true
  | c :: rest =>
    if c = ',' || c = ']' || c = rbraceC || c = '#' then !(rest.contains '\n')
    else if c = '/' then
      match rest with
      | c2 :: rest2 => (c2 = '/' || c2 = '*') && !(rest2.contains '\n')
      | [] => false
    else false

/-- startsWithKeyword: the string starts with true, false or null and is
optionally followed by whitespace and a comment or separator
(encode.go init). -/
def startsWithKeyword (s : List Char) : Bool :=
  (s.take 4 = ['t', 'r', 'u', 'e'] && kwRest (s.drop 4)) ||
    (s.take 5 = ['f', 'a', 'l', 's', 'e'] && kwRest (s.drop 5)) ||
    (s.take 4 = ['n', 'u', 'l', 'l'] && kwRest (s.drop 4))

/-- Text up to the first value terminator, the candidate the quoteless
reader would try to classify. -/
def numScanPrefix : List Char → List Char
  | [] => []
  | c :: rest =>
    if c = ',' || c = rbraceC || c = ']' || c = '#' || c = '\n' ||
        c = '\r' ||
        (c = '/' && (headOr rest = '/' || headOr rest = '*')) then []
    else c :: numScanPrefix rest

/-- Modelled from the spec: startsWithNumber (the file parseNumber.go is
not among the sources).  The ambiguity guard quotes strings that could
otherwise be misread as a number: the text up to the first terminator is
misread when strict number parsing consumes all of it. -/
def startsWithNumber (s : List Char) : Bool :=
  (tryParseNumber (numScanPrefix s)).isSome

/-- The character substitution table (encode.go meta). -/
def metaEsc (c : Char) : Option (List Char) :=
  if c = Char.ofNat 8 then some [bslashC, 'b']
  else if c = '\t' then some [bslashC, 't']
  else if c = '\n' then some [bslashC, 'n']
  else if c = Char.ofNat 12 then some [bslashC, 'f']
  else if c = '\r' then some [bslashC, 'r']
  else if c = dquoteC then some [bslashC, dquoteC]
  else if c = bslashC then some [bslashC, bslashC]
  else none

/-- One lowercase hexadecimal digit. -/
def hexDigitC (n : Nat) : Char :=
  if n < 10 then Char.ofNat (48 + n) else Char.ofNat (87 + n)

/-- Four lowercase hexadecimal digits, the percent-04x of a code point in
the escaped ranges (all below 0x10000). -/
def toHex4 (n : Nat) : List Char :=
  [hexDigitC (n / 4096 % 16), hexDigitC (n / 256 % 16),
    hexDigitC (n / 16 % 16), hexDigitC (n % 16)]

/-- The per-character action of quoteReplace: characters in the needsEscape
class are replaced by their table entry or a backslash-u escape, others kept
(encode.go quoteReplace). -/
def escChar (c : Char) : List Char :=
  if needsEscapeChar c then
    match metaEsc c with
    | some e => e
    | none => [bslashC, 'u'] ++ toHex4 c.toNat
  else [c]

/-- quoteReplace substitutes every needsEscape match (encode.go). -/
def quoteReplace (s : List Char) : List Char := s.flatMap escChar

/-- Encoder output state: the output buffer and the current indent level
(encode.go hjsonEncoder). -/
structure EncSt where
  out : List Char
  indent : Nat
deriving Repr

/-- Append text to the output buffer. -/
def eWrite (e : EncSt) (s : List Char) : EncSt := { e with out := e.out ++ s }

/-- Write an end of line, the base indentation and indent copies of the
indent unit (encode.go writeIndent). -/
def writeIndent (opts : EncoderOptions) (e : EncSt) (indent : Nat) : EncSt :=
  eWrite e (opts.Eol ++ opts.BaseIndentation ++
    (List.replicate indent opts.IndentBy).flatten)

/-- strings.Split on newline: the list of lines, never empty. -/
def splitNl : List Char → List (List Char)
  | [] => [[]]
  | c :: rest =>
    match splitNl rest with
    | [] => [[c]]
    | l :: ls => if c = '\n' then [] :: l :: ls else (c :: l) :: ls

/-- Multiline string emission: single-line content is wrapped inline, each
line of multi-line content is re-indented one level with blank lines
un-indented, and the markers sit on their own indented lines
(encode.go mlString). -/
def mlString (opts : EncoderOptions) (e : EncSt) (value sep : List Char) :
    EncSt :=
  let a := splitNl value
  let e :=
    match a with
    | [l0] => eWrite (eWrite e (sep ++ [squoteC, squoteC, squoteC])) l0
    | _ =>
      let e := eWrite (writeIndent opts e (e.indent + 1))
        [squoteC, squoteC, squoteC]
      let e := a.foldl (fun e2 v =>
        let ind := if v.length = 0 then 0 else e2.indent + 1
        eWrite (writeIndent opts e2 ind) v) e
      writeIndent opts e (e.indent + 1)
  eWrite e [squoteC, squoteC, squoteC]

/-- The string quoting decision (encode.go quote): empty strings always in
quotes; quote when forced, when the content fails the bare-token test, or
when the ambiguity guard fires; inside the quoting branch prefer the plain
quoted form, then the multiline form when allowed and not at the document
root, else the fully escaped quoted form; otherwise write the text bare. -/
def quote (opts : EncoderOptions) (e : EncSt) (value sep : List Char)
    (isRootObject : Bool) : EncSt :=
  if value.isEmpty then eWrite e (sep ++ [dquoteC, dquoteC])
  else if opts.QuoteAlways || needsQuotes value ||
      (opts.QuoteAmbiguousStrings &&
        (startsWithNumber value || startsWithKeyword value)) then
    if !needsEscape value then
      eWrite e (sep ++ [dquoteC] ++ value ++ [dquoteC])
    else if !needsEscapeML value && !isRootObject then
      mlString opts e value sep
    else
      eWrite e (sep ++ [dquoteC] ++ quoteReplace value ++ [dquoteC])
  else eWrite e (sep ++ value)

/-- A character that forces a key name into quotes (encode.go
needsEscapeName, the single-character alternatives). -/
def needsEscapeNameChar (c : Char) : Bool :=
  c = ',' || c = lbraceC || c = '[' || c = rbraceC || c = ']' ||
    reSpace c || c = ':' || c = '#' || c = dquoteC || c = squoteC

/-- A comment opener occurs in the string. -/
def hasCommentSeq : List Char → Bool
  | c :: c2 :: rest =>
    (c = '/' && (c2 = '/' || c2 = '*')) || hasCommentSeq (c2 :: rest)
  | _ => false

/-- needsEscapeName (encode.go init). -/
def needsEscapeName (s : List Char) : Bool :=
  s.any needsEscapeNameChar || hasCommentSeq s

/-- Key quoting (encode.go quoteName). -/
def quoteName (name : List Char) : List Char :=
  if name.isEmpty then [dquoteC, dquoteC]
  else if needsEscapeName name then
    [dquoteC] ++ (if needsEscape name then quoteReplace name else name)
      ++ [dquoteC]
  else name

/-- Host values fed to the encoder: nil interface, bool, string, and the
identity-tracked reference kinds slice, map and pointer, held in a heap so
that reference cycles are expressible.  Numeric, struct and marshaler kinds
are outside the claims and omitted. -/
inductive GV : Type where
  | nullv : GV
  | boolv : Bool → GV
  | strv : List Char → GV
  | arrv : Nat → GV
  | objv : Nat → GV
  | ptrv : Nat → GV
deriving Repr, DecidableEq

/-- A heap cell: slice contents, map contents, or a pointee. -/
inductive HCell : Type where
  | cells : List GV → HCell
  | fields : List (List Char × GV) → HCell
  | one : GV → HCell

/-- The encoder heap: addresses to cells. -/
def Heap : Type := List (Nat × HCell)

/-- Encoder errors: a circular reference (encode.go str), or a dangling
address, which cannot arise from a Go value. -/
inductive EncErr : Type where
  | circular : EncErr
  | missingAddr : EncErr
deriving Repr, DecidableEq

/-- Result of the encoder walk: output state, error, or fuel exhaustion
(unreachable at the fuel supplied by the entry points). -/
inductive ERes : Type where
  | ok : EncSt → ERes
  | fail : EncErr → ERes
  | spin : ERes
deriving Repr

/-- The identity-tracking block run for pointer, slice and map kinds
(encode.go str): the depth counter always increments; past depthLimit the
address is checked against and added to the open-ancestor set. -/
def trackRef (parents : List Nat) (pDepth : Nat) (addr : Nat) :
    Except EncErr (List Nat × Nat) :=
  let pD := pDepth + 1
  if depthLimit < pD then
    if parents.contains addr then .error .circular
    else .ok (addr :: parents, pD)
  else .ok (parents, pD)

/-- Lexicographic order on rune lists, the sort key order of sortAlpha
(byte order and rune order agree on UTF-8). -/
def leChars : List Char → List Char → Bool
  | [], _ => true
  | _ :: _, [] => false
  | a :: as, b :: bs => if a = b then leChars as bs else decide (a < b)

/-- Insertion into a sorted field list. -/
def insSorted (x : List Char × GV) :
    List (List Char × GV) → List (List Char × GV)
  | [] => [x]
  | y :: ys => if leChars x.1 y.1 then x :: y :: ys else y :: insSorted x ys

/-- Map keys sorted alphabetically (encode.go sortAlpha). -/
def sortFields (l : List (List Char × GV)) : List (List Char × GV) :=
  l.foldr insSorted []

/-- Element loop of the slice case (encode.go str): each element on its own
indented line, encoded with no separator and noIndent. -/
def estrElems (f : GV → Bool → List Char → Bool → EncSt → ERes)
    (opts : EncoderOptions) (xs : List GV) (e : EncSt) : ERes :=
  match xs with
  | [] => .ok e
  | x :: rest =>
    let e2 := writeIndent opts e e.indent
    match f x true [] false e2 with
    | .ok e3 => estrElems f opts rest e3
    | r => r

/-- Member loop of writeFields (encode.go writeFields); map fields carry no
comments, so the comment branches are never taken. -/
def estrFieldsLoop (f : GV → Bool → List Char → Bool → EncSt → ERes)
    (opts : EncoderOptions) (isRootObject : Bool)
    (fs : List (List Char × GV)) (isFirst : Bool) (e : EncSt) : ERes :=
  match fs with
  | [] => .ok e
  | (name, v) :: rest =>
    let e := if !isFirst || !isRootObject || opts.EmitRootBraces then
        writeIndent opts e e.indent
      else e
    let e := eWrite e (quoteName name ++ [':'])
    match f v false [' '] false e with
    | .ok e2 => estrFieldsLoop f opts isRootObject rest false e2
    | r => r

/-- writeFields (encode.go): empty maps as a brace pair, otherwise the
optionally brace-wrapped, indented member list. -/
def writeFieldsM (f : GV → Bool → List Char → Bool → EncSt → ERes)
    (opts : EncoderOptions) (fis : List (List Char × GV)) (noIndent : Bool)
    (sep : List Char) (isRootObject : Bool) (e : EncSt) : ERes :=
  if fis.isEmpty then .ok (eWrite e (sep ++ [lbraceC, rbraceC]))
  else
    let indent1 := e.indent
    let e :=
      if !isRootObject || opts.EmitRootBraces then
        let e := if !noIndent && !opts.BracesSameLine then
            writeIndent opts e e.indent
          else eWrite e sep
        eWrite { e with indent := e.indent + 1 } [lbraceC]
      else e
    match estrFieldsLoop f opts isRootObject fis true e with
    | .ok e2 =>
      let e3 :=
        if !isRootObject || opts.EmitRootBraces then
          eWrite (writeIndent opts e2 indent1) [rbraceC]
        else e2
      .ok { e3 with indent := indent1 }
    | r => r

/-- The encoder walk (encode.go str), dispatching on the value kind with
identity tracking for pointer, slice and map kinds.  The fuel bounds the
recursion depth; the entry point supplies enough for tracking to resolve
every walk. -/
def estr (heap : Heap) (opts : EncoderOptions) :
    Nat → GV → Bool → List Char → Bool → List Nat → Nat → EncSt → ERes
  | 0, _, _, _, _, _, _, _ => .spin
  | fuel + 1, v, noIndent, sep, isRootObject, parents, pDepth, e =>
    match v with
    | .nullv => .ok (eWrite e (sep ++ ['n', 'u', 'l', 'l']))
    | .boolv b =>
      .ok (eWrite e (sep ++
        (if b then ['t', 'r', 'u', 'e'] else ['f', 'a', 'l', 's', 'e'])))
    | .strv s => .ok (quote opts e s sep isRootObject)
    | .ptrv addr =>
      match trackRef parents pDepth addr with
      | .error err => .fail err
      | .ok (parents2, pD2) =>
        match mapGet heap addr with
        | some (.one v2) =>
          estr heap opts fuel v2 noIndent sep isRootObject parents2 pD2 e
        | _ => .fail .missingAddr
    | .arrv addr =>
      match trackRef parents pDepth addr with
      | .error err => .fail err
      | .ok (parents2, pD2) =>
        match mapGet heap addr with
        | some (.cells xs) =>
          if xs.isEmpty then .ok (eWrite e (sep ++ ['[', ']']))
          else
            let indent1 := e.indent
            let e := { e with indent := e.indent + 1 }
            let e := if !noIndent && !opts.BracesSameLine then
                writeIndent opts e indent1
              else eWrite e sep
            let e := eWrite e ['[']
            match estrElems
                (fun v2 ni sp ro e2 =>
                  estr heap opts fuel v2 ni sp ro parents2 pD2 e2)
                opts xs e with
            | .ok e2 =>
              .ok { eWrite (writeIndent opts e2 indent1) [']'] with
                indent := indent1 }
            | r => r
        | _ => .fail .missingAddr
    | .objv addr =>
      match trackRef parents pDepth addr with
      | .error err => .fail err
      | .ok (parents2, pD2) =>
        match mapGet heap addr with
        | some (.fields fs) =>
          writeFieldsM
            (fun v2 ni sp ro e2 =>
              estr heap opts fuel v2 ni sp ro parents2 pD2 e2)
            opts (sortFields fs) noIndent sep isRootObject e
        | _ => .fail .missingAddr

/-- MarshalWithOptions (encode.go): encode from the root with the base
indentation as separator and the root flag set. -/
def MarshalWithOptions (heap : Heap) (v : GV) (options : EncoderOptions) :
    ERes :=
  estr heap options (depthLimit + heap.length + 8) v true
    options.BaseIndentation true [] 0 { out := [], indent := 0 }

/-- Marshal with the default options (encode.go). -/
def Marshal (heap : Heap) (v : GV) : ERes :=
  MarshalWithOptions heap v DefaultOptions

/-- Three single quotes, the multiline string delimiter. -/
def tripleQ : List Char := [squoteC, squoteC, squoteC]

/-- The hjson text of the C6 document. -/
def mlDoc : List Char :=
  "a:\n  ".toList ++ tripleQ ++ "line1\n  line2".toList ++ tripleQ

/-- The expected non-root encoding of the C6 object: a multiline block. -/
def mlObjOut : List Char :=
  [lbraceC] ++ "\n  a:\n    ".toList ++ tripleQ
    ++ "\n    line1\n    line2\n    ".toList ++ tripleQ
    ++ "\n".toList ++ [rbraceC]

/-- The expected root encoding of the C6 string: quoted and escaped. -/
def mlRootOut : List Char :=
  [dquoteC] ++ "line1".toList ++ [bslashC, 'n'] ++ "line2".toList
    ++ [dquoteC]

/-- C6: a document value written as a triple-quoted block over two lines at
two-space indentation decodes to the two-line string with the indentation
stripped and no trailing newline; encoding that string inside an object
(not at the document root) emits a triple-quoted multiline block, while
encoding it as the document root falls back to the double-quoted escaped
form. -/
theorem multiline_string_behaviour :
    Unmarshal mlDoc .validPointer
      = .ok (.objv [(['a'], .strv ("line1\nline2".toList))]) ∧
    Marshal [(0, .fields [(['a'], .strv ("line1\nline2".toList))])]
        (.objv 0)
      = .ok { out := mlObjOut, indent := 0 } ∧
    Marshal [] (.strv ("line1\nline2".toList))
      = .ok { out := mlRootOut, indent := 0 } := by
  exact ⟨rfl, rfl, rfl⟩

/-- C1 counterexample: the string a:b is emitted without quotes by the
default encoder, and decoding that output yields an object mapping a to b,
not the original string: encode then decode is not the identity. -/
theorem encode_decode_not_identity :
    Marshal [] (.strv ("a:b".toList))
      = .ok { out := "a:b".toList, indent := 0 } ∧
    Unmarshal ("a:b".toList) .validPointer
      = .ok (.objv [(['a'], .strv ['b'])]) ∧
    HV.objv [(['a'], .strv ['b'])] ≠ .strv ("a:b".toList) := by
  exact ⟨rfl, rfl, fun h => HV.noConfusion h⟩

/-! ## Round trip of quoted strings (C1) -/

theorem escChar_length (c : Char) : 1 ≤ (escChar c).length := by
  unfold escChar
  split
  · cases h : metaEsc c with
    | some m =>
      unfold metaEsc at h
      split_ifs at h <;> (cases h; simp)
    | none => simp
  · simp

theorem flatMap_escChar_length (s : List Char) :
    s.length ≤ (s.flatMap escChar).length := by
  induction s with
  | nil => simp
  | cons c rest ih =>
    rw [List.flatMap_cons]
    simp only [List.length_append, List.length_cons]
    have := escChar_length c
    omega

theorem escape_id (s : List Char) (h : needsEscape s = false) :
    s.flatMap escChar = s := by
  induction s with
  | nil => simp
  | cons c rest ih =>
    unfold needsEscape at h
    simp only [List.any_cons, Bool.or_eq_false_iff] at h
    rw [List.flatMap_cons, ih (by unfold needsEscape; exact h.2)]
    simp [escChar, h.1]

theorem metaEsc_escapee (c : Char) (m : List Char) (h : metaEsc c = some m) :
    ∃ x, m = [bslashC, x] ∧ x ≠ 'u' ∧ escapee x = some c := by
  unfold metaEsc at h
  split_ifs at h with h1 h2 h3 h4 h5 h6 h7 <;>
    first
    | (cases h
       subst h1
       exact ⟨_, rfl, by decide, by decide⟩)
    | (cases h
       subst h2
       exact ⟨_, rfl, by decide, by decide⟩)
    | (cases h
       subst h3
       exact ⟨_, rfl, by decide, by decide⟩)
    | (cases h
       subst h4
       exact ⟨_, rfl, by decide, by decide⟩)
    | (cases h
       subst h5
       exact ⟨_, rfl, by decide, by decide⟩)
    | (cases h
       subst h6
       exact ⟨_, rfl, by decide, by decide⟩)
    | (cases h
       subst h7
       exact ⟨_, rfl, by decide, by decide⟩)

theorem hexVal_hexDigit (n : Nat) (h : n < 16) :
    hexVal (hexDigitC n) = some n := by
  interval_cases n <;> decide

theorem char_toNat_lt (c : Char) : c.toNat < 0x110000 := by
  have := c.valid
  show c.val.toNat < 0x110000
  rcases this with h | h
  · omega
  · omega

theorem writeRune_toNat (c : Char) : writeRune c.toNat = c := by
  have hv := c.valid
  unfold writeRune
  rw [dif_pos ?hv2]
  case hv2 =>
    rcases hv with h | h
    · exact Or.inl h
    · exact Or.inr ⟨h.1, h.2⟩
  · apply Char.ext
    rfl

theorem toHex4_decode (n : Nat) (h : n < 0x10000) :
    ((((n / 4096 % 16) * 16 + n / 256 % 16) * 16 + n / 16 % 16) * 16
        + n % 16) = n := by
  omega

theorem needsEscapeChar_lt (c : Char) (h : needsEscapeChar c = true) :
    c.toNat < 0x10000 := by
  by_cases h1 : c = bslashC
  · rw [h1]; decide
  by_cases h2 : c = dquoteC
  · rw [h2]; decide
  unfold needsEscapeChar commonRangeChar at h
  simp only [h1, h2, Bool.or_eq_true, Bool.and_eq_true,
    decide_eq_true_eq, false_or, or_false] at h
  omega

theorem readStringLoop_ok (allowML : Bool) (s : List Char) :
    ∀ (fuel : Nat), s.length + 1 ≤ fuel →
    ∀ (res pre : List Char) (c : Char),
    readStringLoop allowML dquoteC res
        (mkP pre c (s.flatMap escChar ++ [dquoteC])) fuel
      = .ok (res ++ s,
          eofP (pre ++ c :: (s.flatMap escChar ++ [dquoteC]))) := by
  induction s with
  | nil =>
    intro fuel hfuel res pre c
    match fuel, hfuel with
    | fuel + 1, _ =>
      simp only [List.flatMap_nil, List.nil_append, readStringLoop,
        mkP_next1_cons, mkP_next2_cons, mkP_ch, mkP_next1_nil]
      rw [if_neg (by simp), if_pos trivial]
      have hsq : (decide (dquoteC = squoteC)) = false := rfl
      simp [eofP_ch, hsq]
  | cons ch s' ih =>
    intro fuel hfuel res pre c
    match fuel, hfuel with
    | fuel + 1, hfuel =>
      have hfuel2 : s'.length + 1 ≤ fuel := by
        simp only [List.length_cons] at hfuel
        omega
      by_cases hesc : needsEscapeChar ch = true
      · cases hm : metaEsc ch with
        | some m =>
          obtain ⟨x, rfl, hxu, hxesc⟩ := metaEsc_escapee ch m hm
          have hec : escChar ch = [bslashC, x] := by
            simp [escChar, hesc, hm]
          have step := ih fuel hfuel2 (res ++ [ch])
            (pre ++ [c] ++ [bslashC]) x
          simp only [List.flatMap_cons, hec, List.cons_append,
            List.append_assoc, List.singleton_append, List.nil_append,
            readStringLoop, mkP_next1_cons, mkP_next2_cons, mkP_ch]
          rw [if_neg (by simp), if_neg (by decide), if_pos trivial,
            if_neg hxu, hxesc]
          simp only [List.append_assoc, List.singleton_append,
            List.nil_append] at step
          simp only []
          rw [step]
          simp
        | none =>
          have hec : escChar ch
              = [bslashC, 'u'] ++ toHex4 ch.toNat := by
            simp [escChar, hesc, hm]
          have hlt : ch.toNat < 0x10000 := needsEscapeChar_lt ch hesc
          have hd1 : hexVal (hexDigitC (ch.toNat / 4096 % 16))
              = some (ch.toNat / 4096 % 16) :=
            hexVal_hexDigit _ (Nat.mod_lt _ (by omega))
          have hd2 : hexVal (hexDigitC (ch.toNat / 256 % 16))
              = some (ch.toNat / 256 % 16) :=
            hexVal_hexDigit _ (Nat.mod_lt _ (by omega))
          have hd3 : hexVal (hexDigitC (ch.toNat / 16 % 16))
              = some (ch.toNat / 16 % 16) :=
            hexVal_hexDigit _ (Nat.mod_lt _ (by omega))
          have hd4 : hexVal (hexDigitC (ch.toNat % 16))
              = some (ch.toNat % 16) :=
            hexVal_hexDigit _ (Nat.mod_lt _ (by omega))
          have hu := readUEscape_mkP
            (pre ++ [c] ++ [bslashC]) _ _ _ _
            (s'.flatMap escChar ++ [dquoteC]) _ _ _ _ hd1 hd2 hd3 hd4
          have hval : ((((ch.toNat / 4096 % 16) * 16 + ch.toNat / 256 % 16)
                * 16 + ch.toNat / 16 % 16) * 16 + ch.toNat % 16)
              = ch.toNat := toHex4_decode ch.toNat hlt
          have step := ih fuel hfuel2 (res ++ [ch])
            (pre ++ [c] ++ [bslashC] ++ ['u']
              ++ [hexDigitC (ch.toNat / 4096 % 16)]
              ++ [hexDigitC (ch.toNat / 256 % 16)]
              ++ [hexDigitC (ch.toNat / 16 % 16)])
            (hexDigitC (ch.toNat % 16))
          simp only [List.flatMap_cons, hec, toHex4, List.cons_append,
            List.append_assoc, List.singleton_append, List.nil_append,
            readStringLoop, mkP_next1_cons, mkP_next2_cons, mkP_ch]
          rw [if_neg (by simp), if_neg (by decide), if_pos trivial,
            if_pos trivial]
          simp only [List.append_assoc, List.singleton_append,
            List.nil_append] at hu
          rw [hu]
          simp only [hval, writeRune_toNat]
          simp only [List.append_assoc, List.singleton_append,
            List.nil_append] at step
          rw [step]
          simp
      · have hec : escChar ch = [ch] := by simp [escChar, hesc]
        have hchq : ch ≠ dquoteC := by
          intro hcon
          subst hcon
          exact hesc (by decide)
        have hchb : ch ≠ bslashC := by
          intro hcon
          subst hcon
          exact hesc (by decide)
        have hchn : ch ≠ '\n' := by
          intro hcon
          subst hcon
          exact hesc (by decide)
        have hchr : ch ≠ '\r' := by
          intro hcon
          subst hcon
          exact hesc (by decide)
        have step := ih fuel hfuel2 (res ++ [ch]) (pre ++ [c]) ch
        simp only [List.flatMap_cons, hec, List.cons_append,
          List.append_assoc, List.singleton_append, List.nil_append,
          readStringLoop, mkP_next1_cons, mkP_next2_cons, mkP_ch]
        rw [if_neg (by simp), if_neg hchq, if_neg hchb,
          if_neg (by simp [hchn, hchr])]
        simp only [List.append_assoc, List.singleton_append,
          List.nil_append] at step
        rw [step]

theorem readString_ok (allowML : Bool) (s pre : List Char) :
    readString (mkP pre dquoteC (s.flatMap escChar ++ [dquoteC])) allowML
      = .ok (s, eofP (pre ++ dquoteC :: (s.flatMap escChar ++ [dquoteC]))) := by
  unfold readString
  have hfe : (mkP pre dquoteC (s.flatMap escChar ++ [dquoteC])).data.length
        + 1 - (mkP pre dquoteC (s.flatMap escChar ++ [dquoteC])).atIdx
      = (s.flatMap escChar).length + 2 := by
    simp [mkP]
  rw [hfe]
  have hfuel : s.length + 1 ≤ (s.flatMap escChar).length + 2 := by
    have := flatMap_escChar_length s
    omega
  have := readStringLoop_ok allowML s ((s.flatMap escChar).length + 2)
    hfuel [] pre dquoteC
  simpa [mkP_ch] using this

theorem whiteLoop_nul (p : P) (h : p.ch = NUL) (fuel : Nat) :
    whiteLoop p fuel = p := by
  cases fuel with
  | zero => rfl
  | succ f => simp [whiteLoop, chPos, h]

theorem white_eofP (D : List Char) : white (eofP D) = eofP D := by
  unfold white
  exact whiteLoop_nul _ rfl _

theorem checkTrailing_eofP (v : HV) (D : List Char) :
    checkTrailing (.ok (v, eofP D)) = .ok v := by
  simp [checkTrailing, white_eofP, chPos, eofP_ch]

theorem next1_start (c : Char) (T : List Char) (ch0 : Char) :
    ({ data := c :: T, atIdx := 0, ch := ch0 } : P).next.1 = mkP [] c T := by
  have h : (0 : Nat) < (c :: T).length := by simp
  simp [P.next, h, mkP]

theorem skipWsLoop_stop (p : P) (h : chWs p.ch = false) (fuel : Nat) :
    skipWsLoop p fuel = p := by
  cases fuel with
  | zero => rfl
  | succ f => simp [skipWsLoop, h]

theorem whiteLoop_start_dq (T : List Char) (fuel : Nat) :
    whiteLoop { data := dquoteC :: T, atIdx := 0, ch := ' ' } (fuel + 1)
      = mkP [] dquoteC T := by
  have h2 : skipWsLoop { data := dquoteC :: T, atIdx := 0, ch := ' ' }
      (T.length + 1 + 1) = mkP [] dquoteC T := by
    simp only [skipWsLoop]
    rw [if_pos (show (chPos ' ' && chWs ' ') = true by decide)]
    rw [next1_start]
    rw [if_neg (by simp only [mkP_ch]; decide)]
  simp only [whiteLoop]
  rw [if_pos (show chPos ' ' = true by decide)]
  rw [show (dquoteC :: T).length + 1 - 0 = T.length + 1 + 1 by simp]
  rw [h2]
  simp only [mkP_ch]
  have e1 : decide (dquoteC = '#') = false := by decide
  have e2 : decide (dquoteC = '/') = false := by decide
  rw [if_neg (by rw [e1, e2]; simp)]
  rw [if_neg (by rw [e2]; simp)]

theorem white_start (T : List Char) :
    white { data := dquoteC :: T, atIdx := 0, ch := ' ' }
      = mkP [] dquoteC T := by
  have hfe : white { data := dquoteC :: T, atIdx := 0, ch := ' ' }
      = whiteLoop { data := dquoteC :: T, atIdx := 0, ch := ' ' }
          (T.length + 2 + 1) := by
    unfold white
    congr 1
  rw [hfe]
  exact whiteLoop_start_dq T (T.length + 2)

theorem white_mkP_dq (T : List Char) :
    white (mkP [] dquoteC T) = mkP [] dquoteC T := rfl

theorem readKeyname_quote (T : List Char) :
    readKeyname (mkP [] dquoteC T) = readString (mkP [] dquoteC T) false :=
  rfl

theorem readObjectF_quoted_err (opts : DecoderOptions)
    (rv : P → Except String (HV × P)) (s : List Char) :
    readObjectF opts rv true
        (mkP [] dquoteC (s.flatMap escChar ++ [dquoteC]))
      = .error "Expected colon instead of another character" := by
  have h1 : readObjectF opts rv true
        (mkP [] dquoteC (s.flatMap escChar ++ [dquoteC]))
      = objLoop opts rv true []
          (mkP [] dquoteC (s.flatMap escChar ++ [dquoteC]))
          ((s.flatMap escChar ++ [dquoteC]).length + 2) := rfl
  rw [h1]
  rw [show (s.flatMap escChar ++ [dquoteC]).length + 2
    = ((s.flatMap escChar ++ [dquoteC]).length + 1) + 1 from rfl]
  simp only [objLoop, mkP_ch]
  rw [if_neg (by decide)]
  rw [readKeyname_quote, readString_ok false s []]
  simp only [List.nil_append, white_eofP, eofP_ch]
  rw [if_pos (by decide)]

theorem readValueF_quoted (opts : DecoderOptions) (s : List Char) (n : Nat) :
    readValueFuel opts (n + 1)
        { data := dquoteC :: (s.flatMap escChar ++ [dquoteC]),
          atIdx := 0, ch := ' ' }
      = .ok (.strv s, eofP (dquoteC :: (s.flatMap escChar ++ [dquoteC]))) := by
  simp only [readValueFuel, white_start, mkP_ch]
  rw [if_neg (by decide), if_neg (by decide), if_pos (Or.inl trivial)]
  rw [readString_ok true s []]
  simp

theorem checkTrailing_error (e : String) :
    checkTrailing (Except.error e) = Except.error e := rfl

theorem resetAt_mkP_nil (c : Char) (T : List Char) :
    (mkP [] c T).resetAt = { data := c :: T, atIdx := 0, ch := ' ' } := by
  simp [mkP, P.resetAt]

set_option maxHeartbeats 1600000 in
theorem rootValue_quoted (opts : DecoderOptions) (s : List Char) :
    rootValue opts { data := dquoteC :: (s.flatMap escChar ++ [dquoteC]),
                     atIdx := 0, ch := ' ' } = .ok (.strv s) := by
  unfold rootValue
  simp only [white_start, mkP_ch]
  rw [if_neg (by decide), if_neg (by decide)]
  rw [readObjectF_quoted_err, checkTrailing_error]
  rw [resetAt_mkP_nil]
  rw [show (dquoteC :: (s.flatMap escChar ++ [dquoteC])).length + 2
    = ((s.flatMap escChar ++ [dquoteC]).length + 2) + 1 by
      simp only [List.length_cons]]
  rw [readValueF_quoted, checkTrailing_eofP]

theorem unmarshal_quoted (s : List Char) :
    Unmarshal (dquoteC :: (s.flatMap escChar ++ [dquoteC])) .validPointer
      = .ok (.strv s) :=
  rootValue_quoted DefaultDecoderOptions s

theorem marshal_quoted (s : List Char)
    (hq : s = [] ∨ (needsQuotes s
      || (startsWithNumber s || startsWithKeyword s)) = true) :
    Marshal [] (.strv s)
      = .ok { out := dquoteC :: (s.flatMap escChar ++ [dquoteC]),
              indent := 0 } := by
  have hM : Marshal [] (.strv s)
      = .ok (quote DefaultOptions { out := [], indent := 0 } s [] true) := rfl
  rw [hM]
  rcases hq with hnil | hq
  · subst hnil
    rfl
  · by_cases hs : s = []
    · subst hs
      exact absurd hq (by decide)
    · unfold quote
      rw [if_neg (by simp only [List.isEmpty_eq_true]; exact hs)]
      simp only [DefaultOptions, Bool.false_or, Bool.true_and]
      rw [if_pos hq]
      cases hesc : needsEscape s with
      | false =>
        rw [if_pos (by decide : (!false) = true)]
        rw [escape_id s hesc]
        simp [eWrite]
      | true =>
        rw [if_neg (by decide : ¬(!true) = true)]
        rw [if_neg (by simp)]
        simp [eWrite, quoteReplace]

/-- C1: for every string value that the default encoder emits in quoted
form (the string is empty, fails the bare-token test needsQuotes, or is
caught by the ambiguity guard for number and keyword lookalikes), the
emitted document is the opening quote, the escaped body and the closing
quote, and decoding that document with the default options yields exactly
the original string again.  The unconditional claim is refuted by the
companion counterexample, where a string emitted bare decodes to an
object. -/
theorem string_roundtrip_quoted (s : List Char)
    (hq : s = [] ∨ (needsQuotes s
      || (startsWithNumber s || startsWithKeyword s)) = true) :
    Marshal [] (.strv s)
      = .ok { out := dquoteC :: (s.flatMap escChar ++ [dquoteC]),
              indent := 0 } ∧
    Unmarshal (dquoteC :: (s.flatMap escChar ++ [dquoteC])) .validPointer
      = .ok (.strv s) :=
  ⟨marshal_quoted s hq, unmarshal_quoted s⟩

/-- Witness for string_roundtrip_quoted at the keyword lookalike true. -/
theorem string_roundtrip_quoted_witness :
    (("true".toList : List Char) = [] ∨ (needsQuotes ("true".toList)
      || (startsWithNumber ("true".toList)
        || startsWithKeyword ("true".toList))) = true) ∧
    (Marshal [] (.strv ("true".toList))
      = .ok { out := dquoteC :: (("true".toList).flatMap escChar
                       ++ [dquoteC]), indent := 0 } ∧
    Unmarshal (dquoteC :: (("true".toList).flatMap escChar ++ [dquoteC]))
        .validPointer = .ok (.strv ("true".toList))) :=
  ⟨Or.inr (by decide), string_roundtrip_quoted ("true".toList)
    (Or.inr (by decide))⟩

/-! ## Cycle detection in the encoder (C7) -/

/-- The tracked address of a reference-kind value (pointer, slice, map);
scalar kinds carry none (encode.go str, the Ptr, Slice and Map kinds). -/
def addrOf : GV → Option Nat
  | .ptrv a => some a
  | .arrv a => some a
  | .objv a => some a
  | _ => none

/-- The values a heap cell holds. -/
def cellVals : HCell → List GV
  | .cells xs => xs
  | .fields fs => fs.map Prod.snd
  | .one v => [v]

/-- A value whose address, if any, resolves to a cell of the matching kind,
the condition for the encoder walk to descend rather than fault. -/
def kindOK (heap : Heap) : GV → Bool
  | .ptrv b =>
    match mapGet heap b with
    | some (.one _) => true
    | _ => false
  | .arrv b =>
    match mapGet heap b with
    | some (.cells _) => true
    | _ => false
  | .objv b =>
    match mapGet heap b with
    | some (.fields _) => true
    | _ => false
  | _ => true

/-- Every reference held in any cell resolves with the matching cell kind:
the shape of the heap of a live Go value. -/
def ClosedHeap (heap : Heap) : Bool :=
  heap.all (fun p => (cellVals p.2).all (fun w => kindOK heap w))

/-- One reference step between heap addresses: the cell at the first
address holds a reference-kind value whose address is the second. -/
def refEdge (heap : Heap) (a b : Nat) : Prop :=
  ∃ c w, mapGet heap a = some c ∧ w ∈ cellVals c ∧ addrOf w = some b

/-- A nonempty chain of reference steps. -/
inductive ReachP (heap : Heap) : Nat → Nat → Prop where
  | single : ∀ a b, refEdge heap a b → ReachP heap a b
  | head : ∀ a b c, refEdge heap a b → ReachP heap b c → ReachP heap a c

/-- The value leads into a reference cycle: its own address lies on a
cycle, or a value held in its cell does; this is the shape of a host value
some part of which is its own ancestor. -/
inductive HitsCycle (heap : Heap) : GV → Prop where
  | here : ∀ v a, addrOf v = some a → ReachP heap a a → HitsCycle heap v
  | deeper : ∀ v a c w, addrOf v = some a → mapGet heap a = some c →
      w ∈ cellVals c → HitsCycle heap w → HitsCycle heap v

theorem mapGet_mem {K V : Type} [DecidableEq K] (m : List (K × V)) (k : K)
    (c : V) (h : mapGet m k = some c) : (k, c) ∈ m := by
  induction m with
  | nil => exact Option.noConfusion h
  | cons p rest ih =>
    obtain ⟨k2, v2⟩ := p
    unfold mapGet at h
    by_cases he : k2 = k
    · subst he
      rw [if_pos rfl] at h
      injection h with h2
      subst h2
      exact List.mem_cons_self _ _
    · rw [if_neg he] at h
      exact List.mem_cons_of_mem _ (ih h)

theorem mapGet_mem_keys {K V : Type} [DecidableEq K] (m : List (K × V))
    (k : K) (c : V) (h : mapGet m k = some c) : k ∈ m.map Prod.fst :=
  List.mem_map.mpr ⟨(k, c), mapGet_mem m k c h, rfl⟩

theorem ReachP_snoc (heap : Heap) (a b c : Nat) (h : ReachP heap a b)
    (he : refEdge heap b c) : ReachP heap a c := by
  induction h with
  | single x y hxy => exact .head x y c hxy (.single y c he)
  | head x y z hxy _ ih => exact .head x y c hxy (ih he)

theorem ReachP_rotate (heap : Heap) (a : Nat) (h : ReachP heap a a) :
    ∃ c w b, mapGet heap a = some c ∧ w ∈ cellVals c ∧ addrOf w = some b ∧
      ReachP heap b b := by
  cases h with
  | single _ _ he =>
    obtain ⟨c, w, hg, hw, hb⟩ := he
    exact ⟨c, w, a, hg, hw, hb, .single a a ⟨c, w, hg, hw, hb⟩⟩
  | head _ b _ he hr =>
    obtain ⟨c, w, hg, hw, hb⟩ := he
    exact ⟨c, w, b, hg, hw, hb, ReachP_snoc heap b a b hr ⟨c, w, hg, hw, hb⟩⟩

/-- The keys of the list not contained in parents, with multiplicity. -/
def freeCount (l : List Nat) (parents : List Nat) : Nat :=
  (l.filter (fun a => !parents.contains a)).length

/-- The heap addresses not recorded as open ancestors. -/
def freeAddrs (heap : Heap) (parents : List Nat) : Nat :=
  freeCount (heap.map Prod.fst) parents

theorem freeCount_cons_le (l parents : List Nat) (addr : Nat) :
    freeCount l (addr :: parents) ≤ freeCount l parents := by
  induction l with
  | nil => exact Nat.le_refl _
  | cons x xs ih =>
    simp only [freeCount, List.filter_cons] at ih ⊢
    by_cases hx : parents.contains x = true
    · have hxm : x ∈ parents := by simpa using hx
      have hx2 : (addr :: parents).contains x = true := by simp [hxm]
      rw [hx, hx2]
      simp only [Bool.not_true]
      rw [if_neg Bool.false_ne_true, if_neg Bool.false_ne_true]
      exact ih
    · have hx' : parents.contains x = false := by
        cases hcx : parents.contains x
        · rfl
        · exact absurd hcx hx
      by_cases hy : (addr :: parents).contains x = true
      · rw [hx', hy]
        simp only [Bool.not_true, Bool.not_false]
        rw [if_neg Bool.false_ne_true, if_pos trivial]
        rw [List.length_cons]
        omega
      · have hy' : (addr :: parents).contains x = false := by
          cases hcy : (addr :: parents).contains x
          · rfl
          · exact absurd hcy hy
        rw [hx', hy']
        simp only [Bool.not_false]
        rw [if_pos trivial, if_pos trivial]
        rw [List.length_cons, List.length_cons]
        omega

theorem freeCount_cons_lt (l parents : List Nat) (addr : Nat)
    (hmem : addr ∈ l) (hnp : parents.contains addr = false) :
    freeCount l (addr :: parents) < freeCount l parents := by
  induction l with
  | nil => cases hmem
  | cons x xs ih =>
    simp only [freeCount, List.filter_cons] at ih ⊢
    rcases List.mem_cons.mp hmem with hx | hx
    · subst hx
      have h1 : (addr :: parents).contains addr = true := by simp
      have hle := freeCount_cons_le xs parents addr
      simp only [freeCount] at hle
      rw [h1, hnp]
      simp only [Bool.not_true, Bool.not_false]
      rw [if_neg Bool.false_ne_true, if_pos trivial]
      rw [List.length_cons]
      omega
    · by_cases hx2 : parents.contains x = true
      · have hxm : x ∈ parents := by simpa using hx2
        have hx3 : (addr :: parents).contains x = true := by simp [hxm]
        rw [hx2, hx3]
        simp only [Bool.not_true]
        rw [if_neg Bool.false_ne_true, if_neg Bool.false_ne_true]
        exact ih hx
      · have hx2' : parents.contains x = false := by
          cases hcx : parents.contains x
          · rfl
          · exact absurd hcx hx2
        have := ih hx
        by_cases hx3 : (addr :: parents).contains x = true
        · rw [hx2', hx3]
          simp only [Bool.not_true, Bool.not_false]
          rw [if_neg Bool.false_ne_true, if_pos trivial]
          rw [List.length_cons]
          omega
        · have hx3' : (addr :: parents).contains x = false := by
            cases hcy : (addr :: parents).contains x
            · rfl
            · exact absurd hcy hx3
          rw [hx2', hx3']
          simp only [Bool.not_false]
          rw [if_pos trivial, if_pos trivial]
          rw [List.length_cons, List.length_cons]
          omega

theorem freeAddrs_cons_lt (heap : Heap) (parents : List Nat) (addr : Nat)
    (hmem : addr ∈ heap.map Prod.fst) (hnp : parents.contains addr = false) :
    freeAddrs heap (addr :: parents) < freeAddrs heap parents :=
  freeCount_cons_lt _ _ _ hmem hnp

theorem freeAddrs_le_length (heap : Heap) (parents : List Nat) :
    freeAddrs heap parents ≤ heap.length := by
  have h1 : freeAddrs heap parents ≤ (heap.map Prod.fst).length :=
    List.length_filter_le _ _
  simpa using h1

theorem trackRef_ok_cases (parents : List Nat) (pD addr : Nat)
    (parents2 : List Nat) (pD2 : Nat)
    (h : trackRef parents pD addr = .ok (parents2, pD2)) :
    pD2 = pD + 1 ∧ ((pD + 1 ≤ depthLimit ∧ parents2 = parents) ∨
      (parents.contains addr = false ∧ parents2 = addr :: parents)) := by
  simp only [trackRef] at h
  by_cases h1 : depthLimit < pD + 1
  · rw [if_pos h1] at h
    by_cases h2 : parents.contains addr = true
    · rw [if_pos h2] at h
      exact Except.noConfusion h
    · rw [if_neg h2] at h
      injection h with h3
      injection h3 with h4 h5
      exact ⟨h5.symm, Or.inr ⟨by simpa using h2, h4.symm⟩⟩
  · rw [if_neg h1] at h
    injection h with h3
    injection h3 with h4 h5
    exact ⟨h5.symm, Or.inl ⟨by omega, h4.symm⟩⟩

theorem trackRef_error_circular (parents : List Nat) (pD addr : Nat)
    (err : EncErr) (h : trackRef parents pD addr = .error err) :
    err = .circular := by
  simp only [trackRef] at h
  by_cases h1 : depthLimit < pD + 1
  · rw [if_pos h1] at h
    by_cases h2 : parents.contains addr = true
    · rw [if_pos h2] at h
      injection h with h3
      exact h3.symm
    · rw [if_neg h2] at h
      exact Except.noConfusion h
  · rw [if_neg h1] at h
    exact Except.noConfusion h

theorem trackRef_below (parents : List Nat) (pDepth addr : Nat)
    (h : pDepth + 1 ≤ depthLimit) :
    trackRef parents pDepth addr = .ok (parents, pDepth + 1) := by
  simp only [trackRef]
  rw [if_neg (by omega)]

theorem trackRef_above (parents : List Nat) (pDepth addr : Nat)
    (h1 : depthLimit < pDepth + 1) (h2 : parents.contains addr = true) :
    trackRef parents pDepth addr = .error .circular := by
  simp only [trackRef]
  rw [if_pos h1, if_pos h2]

theorem closed_cell (heap : Heap) (hcl : ClosedHeap heap = true)
    (a : Nat) (c : HCell) (hg : mapGet heap a = some c)
    (w : GV) (hw : w ∈ cellVals c) : kindOK heap w = true := by
  have hmem := mapGet_mem heap a c hg
  simp only [ClosedHeap] at hcl
  have h1 := (List.all_eq_true.mp hcl) (a, c) hmem
  exact (List.all_eq_true.mp h1) w hw

theorem kindOK_ptr (heap : Heap) (addr : Nat)
    (h : kindOK heap (.ptrv addr) = true) :
    ∃ v2, mapGet heap addr = some (.one v2) := by
  simp only [kindOK] at h
  cases hg : mapGet heap addr with
  | none => exact Bool.noConfusion (hg ▸ h)
  | some c =>
    cases c with
    | one v2 => exact ⟨v2, rfl⟩
    | cells xs => exact Bool.noConfusion (hg ▸ h)
    | fields fs => exact Bool.noConfusion (hg ▸ h)

theorem kindOK_arr (heap : Heap) (addr : Nat)
    (h : kindOK heap (.arrv addr) = true) :
    ∃ xs, mapGet heap addr = some (.cells xs) := by
  simp only [kindOK] at h
  cases hg : mapGet heap addr with
  | none => exact Bool.noConfusion (hg ▸ h)
  | some c =>
    cases c with
    | cells xs => exact ⟨xs, rfl⟩
    | one v2 => exact Bool.noConfusion (hg ▸ h)
    | fields fs => exact Bool.noConfusion (hg ▸ h)

theorem kindOK_obj (heap : Heap) (addr : Nat)
    (h : kindOK heap (.objv addr) = true) :
    ∃ fs, mapGet heap addr = some (.fields fs) := by
  simp only [kindOK] at h
  cases hg : mapGet heap addr with
  | none => exact Bool.noConfusion (hg ▸ h)
  | some c =>
    cases c with
    | fields fs => exact ⟨fs, rfl⟩
    | one v2 => exact Bool.noConfusion (hg ▸ h)
    | cells xs => exact Bool.noConfusion (hg ▸ h)

theorem mem_insSorted (x y : List Char × GV) (l : List (List Char × GV)) :
    y ∈ insSorted x l ↔ y = x ∨ y ∈ l := by
  induction l with
  | nil => simp [insSorted]
  | cons z zs ih =>
    simp only [insSorted]
    by_cases h : leChars x.1 z.1 = true
    · rw [if_pos h]
      simp [List.mem_cons]
    · rw [if_neg h]
      simp only [List.mem_cons, ih]
      tauto

theorem mem_sortFields (y : List Char × GV) (l : List (List Char × GV)) :
    y ∈ sortFields l ↔ y ∈ l := by
  induction l with
  | nil => simp [sortFields]
  | cons z zs ih =>
    simp only [sortFields, List.foldr_cons] at ih ⊢
    rw [mem_insSorted, ih]
    exact (List.mem_cons).symm

theorem estrElems_ne_spin (f : GV → Bool → List Char → Bool → EncSt → ERes)
    (opts : EncoderOptions)
    (hf : ∀ v ni sp ro e, f v ni sp ro e ≠ .spin) :
    ∀ xs e, estrElems f opts xs e ≠ .spin := by
  intro xs
  induction xs with
  | nil =>
    intro e h
    simp only [estrElems] at h
    exact ERes.noConfusion h
  | cons x rest ih =>
    intro e h
    simp only [estrElems] at h
    split at h
    · rename_i e3 heq
      exact ih e3 h
    · rename_i r heq
      exact hf _ _ _ _ _ h

theorem estrElems_ne_ok (f : GV → Bool → List Char → Bool → EncSt → ERes)
    (opts : EncoderOptions) (x : GV)
    (hfx : ∀ ni sp ro e eo, f x ni sp ro e ≠ .ok eo) :
    ∀ xs, x ∈ xs → ∀ e eo, estrElems f opts xs e ≠ .ok eo := by
  intro xs
  induction xs with
  | nil =>
    intro hx
    cases hx
  | cons y rest ih =>
    intro hx e eo h
    simp only [estrElems] at h
    split at h
    · rename_i e3 heq
      rcases List.mem_cons.mp hx with hxy | hxr
      · exact hfx _ _ _ _ _ (hxy ▸ heq)
      · exact ih hxr e3 eo h
    · rename_i r heq
      exact heq eo h

theorem estrElems_ne_missing (f : GV → Bool → List Char → Bool → EncSt → ERes)
    (opts : EncoderOptions) :
    ∀ xs, (∀ x ∈ xs, ∀ ni sp ro e, f x ni sp ro e ≠ .fail .missingAddr) →
    ∀ e, estrElems f opts xs e ≠ .fail .missingAddr := by
  intro xs
  induction xs with
  | nil =>
    intro _ e h
    simp only [estrElems] at h
    exact ERes.noConfusion h
  | cons x rest ih =>
    intro hf e h
    simp only [estrElems] at h
    split at h
    · rename_i e3 heq
      exact ih (fun y hy => hf y (List.mem_cons_of_mem _ hy)) e3 h
    · rename_i r heq
      exact hf x (List.mem_cons_self _ _) _ _ _ _ h

theorem estrFieldsLoop_ne_spin (f : GV → Bool → List Char → Bool → EncSt → ERes)
    (opts : EncoderOptions) (isRoot : Bool)
    (hf : ∀ v ni sp ro e, f v ni sp ro e ≠ .spin) :
    ∀ fs isFirst e, estrFieldsLoop f opts isRoot fs isFirst e ≠ .spin := by
  intro fs
  induction fs with
  | nil =>
    intro isFirst e h
    simp only [estrFieldsLoop] at h
    exact ERes.noConfusion h
  | cons p rest ih =>
    obtain ⟨name, v⟩ := p
    intro isFirst e h
    simp only [estrFieldsLoop] at h
    split at h
    · rename_i e2 heq
      exact ih false e2 h
    · rename_i r heq
      exact hf _ _ _ _ _ h

theorem estrFieldsLoop_ne_ok (f : GV → Bool → List Char → Bool → EncSt → ERes)
    (opts : EncoderOptions) (isRoot : Bool) (w : GV)
    (hfx : ∀ ni sp ro e eo, f w ni sp ro e ≠ .ok eo) :
    ∀ fs, (∃ nm, (nm, w) ∈ fs) →
    ∀ isFirst e eo, estrFieldsLoop f opts isRoot fs isFirst e ≠ .ok eo := by
  intro fs
  induction fs with
  | nil =>
    intro hmem
    obtain ⟨nm, hnm⟩ := hmem
    cases hnm
  | cons p rest ih =>
    obtain ⟨name, v⟩ := p
    intro hmem isFirst e eo h
    simp only [estrFieldsLoop] at h
    split at h
    · rename_i e2 heq
      obtain ⟨nm, hnm⟩ := hmem
      rcases List.mem_cons.mp hnm with hp | hp
      · have hv : v = w := congrArg Prod.snd hp.symm
        exact hfx _ _ _ _ _ (hv ▸ heq)
      · exact ih ⟨nm, hp⟩ false e2 eo h
    · rename_i r heq
      exact heq eo h

theorem estrFieldsLoop_ne_missing
    (f : GV → Bool → List Char → Bool → EncSt → ERes)
    (opts : EncoderOptions) (isRoot : Bool) :
    ∀ fs, (∀ nm w, (nm, w) ∈ fs →
        ∀ ni sp ro e, f w ni sp ro e ≠ .fail .missingAddr) →
    ∀ isFirst e, estrFieldsLoop f opts isRoot fs isFirst e
      ≠ .fail .missingAddr := by
  intro fs
  induction fs with
  | nil =>
    intro _ isFirst e h
    simp only [estrFieldsLoop] at h
    exact ERes.noConfusion h
  | cons p rest ih =>
    obtain ⟨name, v⟩ := p
    intro hf isFirst e h
    simp only [estrFieldsLoop] at h
    split at h
    · rename_i e2 heq
      exact ih (fun nm w hw => hf nm w (List.mem_cons_of_mem _ hw)) false e2 h
    · rename_i r heq
      exact hf name v (List.mem_cons_self _ _) _ _ _ _ h

theorem writeFieldsM_ne_spin (f : GV → Bool → List Char → Bool → EncSt → ERes)
    (opts : EncoderOptions) (fis : List (List Char × GV))
    (noIndent : Bool) (sep : List Char) (isRoot : Bool) (e : EncSt)
    (hf : ∀ v ni sp ro e2, f v ni sp ro e2 ≠ .spin) :
    writeFieldsM f opts fis noIndent sep isRoot e ≠ .spin := by
  intro h
  simp only [writeFieldsM] at h
  split at h
  · exact ERes.noConfusion h
  · split at h
    · exact ERes.noConfusion h
    · rename_i r heq
      exact estrFieldsLoop_ne_spin f opts isRoot hf fis true _ h

theorem writeFieldsM_ne_ok (f : GV → Bool → List Char → Bool → EncSt → ERes)
    (opts : EncoderOptions) (fis : List (List Char × GV))
    (noIndent : Bool) (sep : List Char) (isRoot : Bool) (e : EncSt)
    (eo : EncSt) (w : GV) (hmem : ∃ nm, (nm, w) ∈ fis)
    (hfx : ∀ ni sp ro e2 eo2, f w ni sp ro e2 ≠ .ok eo2) :
    writeFieldsM f opts fis noIndent sep isRoot e ≠ .ok eo := by
  intro h
  simp only [writeFieldsM] at h
  split at h
  · rename_i hemp
    obtain ⟨nm, hnm⟩ := hmem
    cases fis with
    | nil => cases hnm
    | cons p rest => simp at hemp
  · split at h
    · rename_i e2 heq
      exact estrFieldsLoop_ne_ok f opts isRoot w hfx fis hmem true _ e2 heq
    · rename_i r heq
      exact heq eo h

theorem writeFieldsM_ne_missing
    (f : GV → Bool → List Char → Bool → EncSt → ERes)
    (opts : EncoderOptions) (fis : List (List Char × GV))
    (noIndent : Bool) (sep : List Char) (isRoot : Bool) (e : EncSt)
    (hf : ∀ nm w, (nm, w) ∈ fis →
      ∀ ni sp ro e2, f w ni sp ro e2 ≠ .fail .missingAddr) :
    writeFieldsM f opts fis noIndent sep isRoot e ≠ .fail .missingAddr := by
  intro h
  simp only [writeFieldsM] at h
  split at h
  · exact ERes.noConfusion h
  · split at h
    · exact ERes.noConfusion h
    · rename_i r heq
      exact estrFieldsLoop_ne_missing f opts isRoot fis hf true _ h

theorem estr_inv_step (heap : Heap) (parents parents2 : List Nat)
    (pD pD2 addr : Nat) (f : Nat)
    (hinv : depthLimit + 1 - pD + freeAddrs heap parents + 1 ≤ f + 1)
    (htr : trackRef parents pD addr = .ok (parents2, pD2))
    (hkey : addr ∈ heap.map Prod.fst) :
    depthLimit + 1 - pD2 + freeAddrs heap parents2 + 1 ≤ f := by
  obtain ⟨hpD2, hcase⟩ := trackRef_ok_cases _ _ _ _ _ htr
  subst hpD2
  rcases hcase with ⟨hle, hpar⟩ | ⟨hnc, hpar⟩
  · subst hpar
    omega
  · subst hpar
    have hlt := freeAddrs_cons_lt heap parents addr hkey hnc
    omega

theorem estr_ne_spin (heap : Heap) (opts : EncoderOptions) :
    ∀ fuel : Nat, ∀ parents pDepth,
      depthLimit + 1 - pDepth + freeAddrs heap parents + 1 ≤ fuel →
      ∀ v noIndent sep isRootObject e,
        estr heap opts fuel v noIndent sep isRootObject parents pDepth e
          ≠ .spin := by
  intro fuel
  induction fuel with
  | zero =>
    intro parents pD hinv
    omega
  | succ f ih =>
    intro parents pD hinv v ni sp ro e h
    cases v with
    | nullv =>
      simp only [estr] at h
      exact ERes.noConfusion h
    | boolv b =>
      simp only [estr] at h
      exact ERes.noConfusion h
    | strv s =>
      simp only [estr] at h
      exact ERes.noConfusion h
    | ptrv addr =>
      simp only [estr] at h
      split at h
      · exact ERes.noConfusion h
      · rename_i parents2 pD2 heq
        split at h
        · rename_i v2 heq2
          have hinv2 := estr_inv_step heap parents parents2 pD pD2 addr f
            hinv heq (mapGet_mem_keys _ _ _ heq2)
          exact ih parents2 pD2 hinv2 v2 ni sp ro e h
        · exact ERes.noConfusion h
    | arrv addr =>
      simp only [estr] at h
      split at h
      · exact ERes.noConfusion h
      · rename_i parents2 pD2 heq
        split at h
        · rename_i xs heq2
          have hinv2 := estr_inv_step heap parents parents2 pD pD2 addr f
            hinv heq (mapGet_mem_keys _ _ _ heq2)
          split at h
          · exact ERes.noConfusion h
          · split at h
            · exact ERes.noConfusion h
            · rename_i r heqr
              exact estrElems_ne_spin _ opts
                (fun v2 ni2 sp2 ro2 e2 => ih parents2 pD2 hinv2 v2 ni2 sp2
                  ro2 e2) xs _ h
        · exact ERes.noConfusion h
    | objv addr =>
      simp only [estr] at h
      split at h
      · exact ERes.noConfusion h
      · rename_i parents2 pD2 heq
        split at h
        · rename_i fs heq2
          have hinv2 := estr_inv_step heap parents parents2 pD pD2 addr f
            hinv heq (mapGet_mem_keys _ _ _ heq2)
          exact writeFieldsM_ne_spin _ opts (sortFields fs) ni sp ro e
            (fun v2 ni2 sp2 ro2 e2 => ih parents2 pD2 hinv2 v2 ni2 sp2
              ro2 e2) h
        · exact ERes.noConfusion h

theorem estr_cyc_ne_ok (heap : Heap) (opts : EncoderOptions) :
    ∀ fuel v, HitsCycle heap v →
      ∀ ni sp ro parents pD e eo,
        estr heap opts fuel v ni sp ro parents pD e ≠ .ok eo := by
  intro fuel
  induction fuel with
  | zero =>
    intro v _ ni sp ro parents pD e eo h
    simp only [estr] at h
    exact ERes.noConfusion h
  | succ f ih =>
    intro v hcyc ni sp ro parents pD e eo h
    have hchild : ∃ a c w, addrOf v = some a ∧ mapGet heap a = some c ∧
        w ∈ cellVals c ∧ HitsCycle heap w := by
      cases hcyc with
      | here v2 a ha hr =>
        obtain ⟨c, w, b, hg, hw, hb, hbb⟩ := ReachP_rotate heap a hr
        exact ⟨a, c, w, ha, hg, hw, .here w b hb hbb⟩
      | deeper v2 a c w ha hg hw hcw => exact ⟨a, c, w, ha, hg, hw, hcw⟩
    obtain ⟨a, c, w, ha, hg, hw, hcw⟩ := hchild
    cases v with
    | nullv => exact Option.noConfusion ha
    | boolv b => exact Option.noConfusion ha
    | strv s => exact Option.noConfusion ha
    | ptrv addr =>
      have haa : addr = a := by
        simp only [addrOf] at ha
        injection ha
      subst haa
      simp only [estr] at h
      split at h
      · exact ERes.noConfusion h
      · rename_i parents2 pD2 heq
        split at h
        · rename_i v2 heq2
          rw [heq2] at hg
          injection hg with hgc
          subst hgc
          have hwv : w = v2 := List.mem_singleton.mp hw
          subst hwv
          exact ih _ hcw ni sp ro parents2 pD2 e eo h
        · exact ERes.noConfusion h
    | arrv addr =>
      have haa : addr = a := by
        simp only [addrOf] at ha
        injection ha
      subst haa
      simp only [estr] at h
      split at h
      · exact ERes.noConfusion h
      · rename_i parents2 pD2 heq
        split at h
        · rename_i xs heq2
          rw [heq2] at hg
          injection hg with hgc
          subst hgc
          have hwx : w ∈ xs := hw
          split at h
          · rename_i hemp
            cases xs with
            | nil => cases hwx
            | cons y ys => simp at hemp
          · split at h
            · rename_i e2 heq3
              exact estrElems_ne_ok _ opts w
                (fun ni2 sp2 ro2 e3 eo2 => ih w hcw ni2 sp2 ro2 parents2
                  pD2 e3 eo2) xs hwx _ _ heq3
            · rename_i r heqno
              exact heqno eo h
        · exact ERes.noConfusion h
    | objv addr =>
      have haa : addr = a := by
        simp only [addrOf] at ha
        injection ha
      subst haa
      simp only [estr] at h
      split at h
      · exact ERes.noConfusion h
      · rename_i parents2 pD2 heq
        split at h
        · rename_i fs heq2
          rw [heq2] at hg
          injection hg with hgc
          subst hgc
          have hwm : w ∈ fs.map Prod.snd := hw
          obtain ⟨p, hp, hps⟩ := List.mem_map.mp hwm
          have hpw : (p.1, w) ∈ fs := by
            rw [← hps]
            exact hp
          have hsm : (p.1, w) ∈ sortFields fs :=
            (mem_sortFields _ _).mpr hpw
          exact writeFieldsM_ne_ok _ opts (sortFields fs) ni sp ro e eo w
            ⟨p.1, hsm⟩
            (fun ni2 sp2 ro2 e2 eo2 => ih w hcw ni2 sp2 ro2 parents2 pD2
              e2 eo2) h
        · exact ERes.noConfusion h

theorem estr_ne_missing (heap : Heap) (opts : EncoderOptions)
    (hcl : ClosedHeap heap = true) :
    ∀ fuel v, kindOK heap v = true →
      ∀ ni sp ro parents pD e,
        estr heap opts fuel v ni sp ro parents pD e
          ≠ .fail .missingAddr := by
  intro fuel
  induction fuel with
  | zero =>
    intro v _ ni sp ro parents pD e h
    simp only [estr] at h
    exact ERes.noConfusion h
  | succ f ih =>
    intro v hk ni sp ro parents pD e h
    cases v with
    | nullv =>
      simp only [estr] at h
      exact ERes.noConfusion h
    | boolv b =>
      simp only [estr] at h
      exact ERes.noConfusion h
    | strv s =>
      simp only [estr] at h
      exact ERes.noConfusion h
    | ptrv addr =>
      obtain ⟨v2, hg⟩ := kindOK_ptr heap addr hk
      simp only [estr] at h
      split at h
      · rename_i err heq
        injection h with herr
        exact EncErr.noConfusion
          ((trackRef_error_circular _ _ _ _ heq).symm.trans herr)
      · rename_i parents2 pD2 heq
        split at h
        · rename_i v2' heq2
          have hkv : kindOK heap v2' = true :=
            closed_cell heap hcl addr (.one v2') heq2 v2'
              (by simp [cellVals])
          exact ih v2' hkv ni sp ro parents2 pD2 e h
        · rename_i hno
          exact hno v2 hg
    | arrv addr =>
      obtain ⟨xs0, hg⟩ := kindOK_arr heap addr hk
      simp only [estr] at h
      split at h
      · rename_i err heq
        injection h with herr
        exact EncErr.noConfusion
          ((trackRef_error_circular _ _ _ _ heq).symm.trans herr)
      · rename_i parents2 pD2 heq
        split at h
        · rename_i xs heq2
          split at h
          · exact ERes.noConfusion h
          · split at h
            · exact ERes.noConfusion h
            · rename_i r heqr
              exact estrElems_ne_missing _ opts xs
                (fun x hx ni2 sp2 ro2 e2 => ih x
                  (closed_cell heap hcl addr (.cells xs) heq2 x hx)
                  ni2 sp2 ro2 parents2
                  pD2 e2) _ h
        · rename_i hno
          exact hno xs0 hg
    | objv addr =>
      obtain ⟨fs0, hg⟩ := kindOK_obj heap addr hk
      simp only [estr] at h
      split at h
      · rename_i err heq
        injection h with herr
        exact EncErr.noConfusion
          ((trackRef_error_circular _ _ _ _ heq).symm.trans herr)
      · rename_i parents2 pD2 heq
        split at h
        · rename_i fs heq2
          exact writeFieldsM_ne_missing _ opts (sortFields fs) ni sp ro e
            (fun nm w hwm ni2 sp2 ro2 e2 => ih w
              (closed_cell heap hcl addr (.fields fs) heq2 w
                (List.mem_map.mpr ⟨(nm, w), (mem_sortFields _ _).mp hwm,
                  rfl⟩)) ni2 sp2 ro2 parents2 pD2 e2) h
        · rename_i hno
          exact hno fs0 hg

theorem marshal_cyclic_circular (heap : Heap) (opts : EncoderOptions)
    (v : GV) (hcyc : HitsCycle heap v) (hcl : ClosedHeap heap = true)
    (hk : kindOK heap v = true) :
    MarshalWithOptions heap v opts = .fail .circular := by
  cases hres : MarshalWithOptions heap v opts with
  | ok eo =>
    unfold MarshalWithOptions at hres
    exact absurd hres (estr_cyc_ne_ok heap opts _ v hcyc _ _ _ _ _ _ eo)
  | fail err =>
    cases err with
    | circular => rfl
    | missingAddr =>
      unfold MarshalWithOptions at hres
      exact absurd hres (estr_ne_missing heap opts hcl _ v hk _ _ _ _ _ _)
  | spin =>
    unfold MarshalWithOptions at hres
    have hfree := freeAddrs_le_length heap []
    exact absurd hres (estr_ne_spin heap opts _ [] 0 (by omega) v _ _ _ _)

/-- C7: a host value that leads into a reference cycle, over a closed heap
(every held reference resolves with the matching cell kind, as for a live
Go value), makes the encoder terminate with the circular-reference error:
it neither runs out of fuel, nor succeeds, nor reports a dangling address.
Identity tracking activates only beyond the fixed depth threshold: at or
below depthLimit the open-ancestor set is neither consulted nor extended,
while past the threshold a revisited open address is reported circular. -/
theorem cyclic_encode_error (heap : Heap) (opts : EncoderOptions) (v : GV)
    (hcyc : HitsCycle heap v) (hcl : ClosedHeap heap = true)
    (hk : kindOK heap v = true) :
    MarshalWithOptions heap v opts = .fail .circular ∧
    (∀ parents pDepth addr, pDepth + 1 ≤ depthLimit →
      trackRef parents pDepth addr = .ok (parents, pDepth + 1)) ∧
    (∀ parents pDepth addr, depthLimit < pDepth + 1 →
      parents.contains addr = true →
      trackRef parents pDepth addr = .error .circular) :=
  ⟨marshal_cyclic_circular heap opts v hcyc hcl hk,
    fun parents pD addr hle => trackRef_below parents pD addr hle,
    fun parents pD addr h1 h2 => trackRef_above parents pD addr h1 h2⟩

/-- Witness for cyclic_encode_error at the self-referential pointer. -/
theorem cyclic_encode_error_witness :
    HitsCycle [(0, HCell.one (GV.ptrv 0))] (GV.ptrv 0) ∧
    ClosedHeap [(0, HCell.one (GV.ptrv 0))] = true ∧
    kindOK [(0, HCell.one (GV.ptrv 0))] (GV.ptrv 0) = true ∧
    (MarshalWithOptions [(0, HCell.one (GV.ptrv 0))] (GV.ptrv 0)
        DefaultOptions = .fail .circular ∧
      (∀ parents pDepth addr, pDepth + 1 ≤ depthLimit →
        trackRef parents pDepth addr = .ok (parents, pDepth + 1)) ∧
      (∀ parents pDepth addr, depthLimit < pDepth + 1 →
        parents.contains addr = true →
        trackRef parents pDepth addr = .error .circular)) := by
  have hcyc : HitsCycle [(0, HCell.one (GV.ptrv 0))] (GV.ptrv 0) :=
    .here (GV.ptrv 0) 0 rfl
      (.single 0 0 ⟨HCell.one (GV.ptrv 0), GV.ptrv 0, rfl,
        List.mem_singleton.mpr rfl, rfl⟩)
  exact ⟨hcyc, by decide, by decide,
    cyclic_encode_error _ DefaultOptions _ hcyc (by decide) (by decide)⟩

end Hjson
